import Mathlib

/-
Verification of the record-normalization and schema-reconciliation pipeline
of the google_places_api_scraper_transformer repository.

The Python sources (main.py, etl_farmshops.py, cleaner.py) operate on JSON
data: untyped mappings from string keys to JSON values.  We shallowly embed
JSON values as the inductive type `JVal` below, model the relevant Python
primitives (`float()`, `int()`, `str()`, truthiness, `==`, `in`,
`str.lower`, `str.replace`, `str.split(sep, 1)`), and translate the
pipeline functions into Lean, with fallible Python code returning
`Except String`.

Modelling conventions, stated once:
  * Python floats are modelled as exact fractions (`PyFloat`, an integer
    numerator with positive integer denominator, not normalized).  The
    pipeline never does arithmetic on the coordinates it extracts - it only
    parses, defaults and passes them through - so exact fractions are a
    faithful idealization of binary floating point for every property
    proved here.
  * `pyStr` of a float renders a terminating decimal expansion (up to 12
    fractional digits); Python's shortest-roundtrip float repr differs in
    general, but no theorem below inspects such a rendering.
  * Python `==` on dicts is order-insensitive; `jeq` below compares entry
    lists in order.  Every comparison the embedded code performs against a
    dict compares with the empty dict, where the two notions agree.  Python
    raises TypeError on unhashable set members / dict keys; the embedding
    ignores hashability (no theorem below exercises unhashable values).
-/

/-- An exact model of a Python float: an integer fraction.  `den` is kept
positive by construction everywhere below.  Not normalized; numeric
equality (`jeq`) compares by cross-multiplication. -/
structure PyFloat where
  num : Int
  den : Int
deriving Repr, DecidableEq

/-- The float `0.0`. -/
def pfZero : PyFloat := ⟨0, 1⟩

/-- A JSON value as manipulated by the Python pipeline: Python's None,
bool, int, float, str, list and dict restricted to string keys (all dicts
in the pipeline originate from JSON parsing or literal construction). -/
inductive JVal where
  | jnull
  | jbool (b : Bool)
  | jint (n : Int)
  | jfloat (f : PyFloat)
  | jstr (s : String)
  | jarr (l : List JVal)
  | jobj (l : List (String × JVal))

/-- A Python dict with string keys: an association list in insertion order. -/
abbrev Obj := List (String × JVal)

/-- First value bound to key `k`, like Python dict lookup. -/
def lookupJ (r : Obj) (k : String) : Option JVal :=
  match r with
  | [] => none
  | (k0, v0) :: rest => if k0 == k then some v0 else lookupJ rest k

/-- Python `record.get(k, d)`. -/
def getD (r : Obj) (k : String) (d : JVal) : JVal :=
  (lookupJ r k).getD d

/-- Python `k in record`. -/
def containsKey (r : Obj) (k : String) : Bool :=
  (lookupJ r k).isSome

/-- Python `record[k] = v`: replace the first binding of `k` in place,
or append a new binding at the end (dict insertion-order semantics). -/
def dictSet (r : Obj) (k : String) (v : JVal) : Obj :=
  match r with
  | [] => [(k, v)]
  | (k0, v0) :: rest => if k0 == k then (k0, v) :: rest else (k0, v0) :: dictSet rest k v

/-- Python truthiness of a JSON value. -/
def pyTruthy : JVal → Bool
  | .jnull => false
  | .jbool b => b
  | .jint n => n != 0
  | .jfloat f => f.num != 0
  | .jstr s => !s.isEmpty
  | .jarr l => !l.isEmpty
  | .jobj l => !l.isEmpty

/-- Numeric view as a fraction: Python compares bool, int and float as
numbers. -/
def numVal? : JVal → Option (Int × Int)
  | .jbool b => some (if b then 1 else 0, 1)
  | .jint n => some (n, 1)
  | .jfloat f => some (f.num, f.den)
  | _ => none

mutual

/-- Python `==` on JSON values: numeric values compare by value across
bool/int/float; strings, lists compare structurally; dicts are compared
entrywise in order (see the convention note at the top of the file). -/
def jeq : JVal → JVal → Bool
  | .jnull, .jnull => true
  | .jstr a, .jstr b => a == b
  | .jarr a, .jarr b => jeqL a b
  | .jobj a, .jobj b => jeqO a b
  | a, b =>
    match numVal? a, numVal? b with
    | some x, some y => x.1 * y.2 == y.1 * x.2
    | _, _ => false

def jeqL : List JVal → List JVal → Bool
  | [], [] => true
  | a :: as_, b :: bs => jeq a b && jeqL as_ bs
  | _, _ => false

def jeqO : List (String × JVal) → List (String × JVal) → Bool
  | [], [] => true
  | (k1, v1) :: as_, (k2, v2) :: bs => k1 == k2 && jeq v1 v2 && jeqO as_ bs
  | _, _ => false

end

/-- Digit run: accumulate decimal digits, returning value, count, rest. -/
def readDigits : List Char → Nat → Nat → Nat × Nat × List Char
  | [], acc, n => (acc, n, [])
  | c :: rest, acc, n =>
    if c.isDigit then readDigits rest (acc * 10 + (c.toNat - 48)) (n + 1)
    else (acc, n, c :: rest)

/-- Optional leading sign; returns (isNegative, rest). -/
def parseSign : List Char → Bool × List Char
  | '-' :: rest => (true, rest)
  | '+' :: rest => (false, rest)
  | l => (false, l)

/-- Strip leading and trailing whitespace, as Python number parsing does. -/
def trimChars (l : List Char) : List Char :=
  ((l.dropWhile Char.isWhitespace).reverse.dropWhile Char.isWhitespace).reverse

/-- Exponent part after the mantissa digits: `[+-]?digits`, end of input. -/
def parseExpCore (l : List Char) (mnum mden : Int) : Option PyFloat :=
  let (eneg, l) := parseSign l
  let (e, en, l) := readDigits l 0 0
  if en == 0 || !l.isEmpty then none
  else some (if eneg then ⟨mnum, mden * (10 : Int) ^ e⟩ else ⟨mnum * (10 : Int) ^ e, mden⟩)

/-- Exponent tail of a float literal: `[eE][+-]?digits`, or end of input. -/
def parseExpTail (l : List Char) (mnum mden : Int) : Option PyFloat :=
  match l with
  | [] => some ⟨mnum, mden⟩
  | 'e' :: rest => parseExpCore rest mnum mden
  | 'E' :: rest => parseExpCore rest mnum mden
  | _ => none

/-- Python `float(string)` on a trimmed character list: optional sign,
decimal digits with optional fraction part, optional exponent.  (`inf` and
`nan` literals are not modelled; no pipeline input uses them.) -/
def parseFloatCore (l : List Char) : Option PyFloat :=
  let (neg, l) := parseSign l
  let (ip, ipn, l) := readDigits l 0 0
  match l with
  | '.' :: rest =>
    let (fp, fpn, rest) := readDigits rest 0 0
    if ipn + fpn == 0 then none
    else
      let m : Int := ((ip * 10 ^ fpn + fp : Nat) : Int)
      parseExpTail rest (if neg then -m else m) ((10 : Int) ^ fpn)
  | _ =>
    if ipn == 0 then none
    else parseExpTail l (if neg then -(ip : Int) else (ip : Int)) 1

/-- Python `float(v)`: succeeds on bool/int/float and parseable strings,
raises (here: `none`) on None, lists, dicts and unparseable strings. -/
def pyFloat : JVal → Option PyFloat
  | .jint n => some ⟨n, 1⟩
  | .jfloat f => some f
  | .jbool b => some ⟨if b then 1 else 0, 1⟩
  | .jstr s => parseFloatCore (trimChars s.toList)
  | _ => none

/-- Truncation toward zero, Python `int(float)`. -/
def pfTrunc (f : PyFloat) : Int :=
  Int.tdiv f.num f.den

/-- Python `int(string)`: optional sign and decimal digits only. -/
def parseIntChars (l : List Char) : Option Int :=
  let l := trimChars l
  let (neg, l) := parseSign l
  let (v, n, rest) := readDigits l 0 0
  if n == 0 || !rest.isEmpty then none
  else some (if neg then -(v : Int) else (v : Int))

/-- Python `int(v)`: succeeds on bool/int, truncates floats, parses integer
strings; raises (`none`) otherwise. -/
def pyIntOf : JVal → Option Int
  | .jint n => some n
  | .jbool b => some (if b then 1 else 0)
  | .jfloat f => some (pfTrunc f)
  | .jstr s => parseIntChars s.toList
  | _ => none

/-- Decimal digits of `rem / den`, up to `fuel` places, dropping the tail
once the remainder vanishes. -/
def fracDigits : Nat → Nat → Nat → List Char
  | 0, _, _ => []
  | fuel + 1, rem, den =>
    if rem == 0 then []
    else Char.ofNat (48 + rem * 10 / den) :: fracDigits fuel (rem * 10 % den) den

/-- Render a float the way Python renders it: always with a decimal point
(see the convention note at the top). -/
def pfRender (f : PyFloat) : String :=
  let sign := if f.num < 0 then "-" else ""
  let a := f.num.natAbs
  let d := f.den.natAbs
  let ds := fracDigits 12 (a % d) d
  sign ++ toString (a / d) ++ "." ++ (if ds.isEmpty then "0" else String.mk ds)

/-- `str` of a scalar (None/bool/int/float). -/
def pyScalarStr : JVal → String
  | .jnull => "None"
  | .jbool b => if b then "True" else "False"
  | .jint n => toString n
  | .jfloat f => pfRender f
  | _ => ""

mutual

/-- Python `repr(v)` (string quoting unescaped - see convention note). -/
def pyRepr : JVal → String
  | .jstr s => "\x27" ++ s ++ "\x27"
  | .jarr l => "[" ++ reprJoin l ++ "]"
  | .jobj l => "\x7b" ++ reprJoinObj l ++ "\x7d"
  | v => pyScalarStr v

def reprJoin : List JVal → String
  | [] => ""
  | [x] => pyRepr x
  | x :: rest => pyRepr x ++ ", " ++ reprJoin rest

def reprJoinObj : List (String × JVal) → String
  | [] => ""
  | [(k, v)] => "\x27" ++ k ++ "\x27: " ++ pyRepr v
  | (k, v) :: rest => "\x27" ++ k ++ "\x27: " ++ pyRepr v ++ ", " ++ reprJoinObj rest

end

/-- Python `str(v)`: the string itself for strings, repr-style otherwise. -/
def pyStr : JVal → String
  | .jstr s => s
  | v => pyRepr v

/-- Lower-casing of one character: ASCII letters plus the German capital
umlauts appearing in the repository's keyword tables. -/
def pyLowerChar (c : Char) : Char :=
  if 'A' ≤ c && c ≤ 'Z' then Char.ofNat (c.toNat + 32)
  else if c = 'Ö' then 'ö'
  else if c = 'Ä' then 'ä'
  else if c = 'Ü' then 'ü'
  else c

/-- Python `s.lower()` (restricted to the alphabet the pipeline uses). -/
def pyLower (s : String) : String :=
  String.mk (s.toList.map pyLowerChar)

/-- `needle` occurs as a contiguous sublist of `hay`. -/
def listContains (hay needle : List Char) : Bool :=
  hay.tails.any fun t => needle.isPrefixOf t

/-- Python `needle in hay` for strings (substring test). -/
def strContains (hay needle : String) : Bool :=
  listContains hay.toList needle.toList

/-- Split at the first occurrence of `sep`: `none` when `sep` is absent.
Models Python `s.split(sep, 1)` yielding two parts (vs. one part). -/
def splitFirstChars (sep : List Char) : List Char → Option (List Char × List Char)
  | [] => none
  | c :: rest =>
    if sep.isPrefixOf (c :: rest) then some ([], List.drop sep.length (c :: rest))
    else
      match splitFirstChars sep rest with
      | some (pre, post) => some (c :: pre, post)
      | none => none

/-- Python `s.split(sep, 1)` producing exactly two parts. -/
def splitFirst (s sep : String) : Option (String × String) :=
  match splitFirstChars sep.toList s.toList with
  | some (pre, post) => some (String.mk pre, String.mk post)
  | none => none

/-- Left-to-right non-overlapping replacement, with enough fuel to scan the
whole input (Python `str.replace` with a non-empty pattern). -/
def replaceAux (pat rep : List Char) : Nat → List Char → List Char
  | _, [] => []
  | 0, l => l
  | fuel + 1, c :: rest =>
    if pat.isPrefixOf (c :: rest) then
      rep ++ replaceAux pat rep fuel (List.drop pat.length (c :: rest))
    else c :: replaceAux pat rep fuel rest

/-- Python `s.replace(pat, rep)` for non-empty `pat`. -/
def strReplace (s pat rep : String) : String :=
  String.mk (replaceAux pat.toList rep.toList s.toList.length s.toList)

/-- Python `in` as used by `extract_long_name` (`level in component.get("types", [])`):
membership for lists and dicts, substring for strings, TypeError otherwise. -/
def pyIn (level : String) : JVal → Except String Bool
  | .jarr l => .ok (l.any fun x => jeq x (.jstr level))
  | .jstr s => .ok (strContains s level)
  | .jobj l => .ok (containsKey l level)
  | _ => .error "TypeError: argument is not iterable"

/-- A value used where Python requires a `str` (method call receiver). -/
def asStr : JVal → Except String String
  | .jstr s => .ok s
  | _ => .error "AttributeError"

example : pyFloat (.jstr "  15 ") = some ⟨15, 1⟩ := by decide
example : pyFloat (.jstr "1.5e1") = some ⟨150, 10⟩ := by decide
example : pyFloat (.jstr "abc") = none := by decide
example : pyFloat (.jstr "0") = some pfZero := by decide
example : pyIntOf (.jstr "5") = some 5 := by decide
example : pyIntOf (.jstr "5.0") = none := by decide
example : strContains "demeterhof" "demeter" = true := by decide
example : splitFirst "Monday: 9: 00" ": " = some ("Monday", "9: 00") := by decide
example : strReplace "9:00 - 18:00 - x" " - " "-" = "9:00-18:00-x" := by decide
example : jeq (.jint 1) (.jfloat ⟨2, 2⟩) = true := by decide

/- ### Hours formatter (main.py lines 516-563) -/

/-- The fixed fallback opening-hours string (main.py lines 259, 319, 505, 520). -/
def fallbackHours : String := "Mon-Fri: 9:00-18:00, Sat: 9:00-16:00"

/-- Canonical week-order table (main.py line 530). -/
def day_order : List (String × Nat) :=
  [("Mon", 0), ("Tue", 1), ("Wed", 2), ("Thu", 3), ("Fri", 4), ("Sat", 5), ("Sun", 6)]

/-- `day_order.get(d, 7)` - the sort key used by the formatter (lines 536, 543). -/
def dayKey (d : String) : Nat :=
  (List.lookup d day_order).getD 7

/-- Add one `day` under the group of its `hours` value, appending a new
group at the end for a first-seen hours value (main.py lines 523-527). -/
def addDay (acc : List (JVal × List String)) (h : JVal) (d : String) : List (JVal × List String) :=
  match acc with
  | [] => [(h, [d])]
  | (h0, ds) :: rest => if jeq h h0 then (h0, ds ++ [d]) :: rest else (h0, ds) :: addDay rest h d

/-- Group days sharing an equal hours value, preserving first-occurrence
order of groups and insertion order of days (main.py lines 523-527). -/
def hoursToDays (d : List (String × JVal)) : List (JVal × List String) :=
  d.foldl (fun acc p => addDay acc p.2 p.1) []

/-- `days.sort(key=lambda d: day_order.get(d, 7))`: Python's stable
ascending sort by key (main.py line 536).  `orderedInsert` with `≤` on
keys places each element before all strictly later-inserted elements of
equal key, which coincides with stable sorting. -/
def sortDays (days : List String) : List String :=
  List.insertionSort (fun a b => dayKey a ≤ dayKey b) days

/-- The loop of main.py lines 542-547: extend the current run while the
next day's key is the previous day's key plus one, else close the run. -/
def rangesAux (cur : List String) (prev : String) : List String → List (List String)
  | [] => [cur]
  | d :: rest =>
    if dayKey d == dayKey prev + 1 then rangesAux (cur ++ [d]) d rest
    else cur :: rangesAux [d] d rest

/-- main.py lines 539-549: split `days` into runs of consecutive keys.
(The source indexes `days[0]` and so is only ever called on a non-empty
list; the `[]` case is unreachable filler.) -/
def dayRanges : List String → List (List String)
  | [] => []
  | d :: rest => rangesAux [d] d rest

/-- `hours.replace(" – ", "-").replace(" - ", "-")` (main.py line 560). -/
def cleanHours (h : String) : String :=
  strReplace (strReplace h " – " "-") " - " "-"

/-- One run rendered as a day label (main.py lines 552-557). -/
def rangeLabel (r : List String) : String :=
  if r.length == 1 then (r.head?).getD ""
  else (r.head?).getD "" ++ "-" ++ (r.getLast?).getD ""

/-- Format one hours-group: sort its days, collapse consecutive runs,
render `"days: hours"` (main.py lines 534-561).  Fails (AttributeError on
`.replace`) when the hours value is not a string. -/
def formatGroup (g : JVal × List String) : Except String String := do
  let hs ← asStr g.1
  let labels := (dayRanges (sortDays g.2)).map rangeLabel
  pure (String.intercalate ", " labels ++ ": " ++ cleanHours hs)

/-- main.py lines 516-563: convert an opening-hours dict to a string.  An
empty (falsy) dict yields the fixed fallback. -/
def format_opening_hours_to_string (d : List (String × JVal)) : Except String String :=
  if d.isEmpty then .ok fallbackHours
  else do
    let parts ← (hoursToDays d).mapM formatGroup
    pure (String.intercalate ", " parts)

/- ### Weekday-text parsing (main.py lines 442-464) -/

/-- Full-name to abbreviation table (main.py lines 449-457). -/
def days_map : List (String × String) :=
  [("Monday", "Mon"), ("Tuesday", "Tue"), ("Wednesday", "Wed"), ("Thursday", "Thu"),
   ("Friday", "Fri"), ("Saturday", "Sat"), ("Sunday", "Sun")]

/-- The loop of main.py lines 459-464: split each entry on the first
`": "`, abbreviate recognized day names, keep others verbatim; fewer than
two parts means the entry is skipped. -/
def parseEntries : List JVal → List (String × JVal) → Except String (List (String × JVal))
  | [], acc => .ok acc
  | e :: rest, acc => do
    let s ← asStr e
    match splitFirst s ": " with
    | some (day_full, hours) =>
      parseEntries rest (dictSet acc ((List.lookup day_full days_map).getD day_full) (.jstr hours))
    | none => parseEntries rest acc

/-- main.py lines 442-464: extract weekday-text entries into a
day-abbreviation dict; a falsy value yields the empty dict.  (Iterating a
string yields single characters, whose split on `": "` never has two
parts, so the dict stays empty in that case too.) -/
def parseWeekdayText (v : JVal) : Except String (List (String × JVal)) :=
  if !(pyTruthy v) then .ok []
  else
    match v with
    | .jarr l => parseEntries l []
    | .jstr _ => .ok []
    | _ => .error "TypeError: not iterable"

/- ### Heuristic enrichment (main.py lines 566-615) -/

/-- Category keyword table (main.py lines 571-582), in declaration order. -/
def product_categories : List (String × List String) :=
  [("vegetables", ["gemüse", "veg", "veget", "gemuese"]),
   ("fruits", ["früchte", "fruit", "obst", "beeren", "berry", "äpfel", "apple"]),
   ("dairy", ["milch", "milk", "käse", "cheese", "dairy", "joghurt", "yogurt"]),
   ("meat", ["fleisch", "meat", "metzg", "wurst", "sausage", "meatery"]),
   ("eggs", ["eier", "egg"]),
   ("honey", ["honig", "honey", "imker"]),
   ("herbs", ["kräuter", "herb", "spice"]),
   ("wines", ["wein", "wine", "reben", "rebberg", "vineyard"]),
   ("flowers", ["blumen", "flower", "gärtnerei", "garden"]),
   ("bakery", ["brot", "bread", "bäckerei", "bakery", "gebäck"])]

/-- main.py lines 566-594: likely products from the shop name, or the
fixed default list when no keyword matches. -/
def generate_products_from_name (name : String) : List String :=
  let name_lower := pyLower name
  let likely_products :=
    (product_categories.filter fun p => p.2.any fun kw => strContains name_lower kw).map (·.1)
  if likely_products.isEmpty then ["vegetables", "fruits", "dairy"] else likely_products

/-- main.py lines 597-615: synthesize a description.  (A truthy non-list
`products` value makes the source do Python string/len tricks no pipeline
path produces; modelled as an error.) -/
def generate_description (name canton organic products : JVal) : Except String String := do
  let d := pyStr name ++ " is a farm shop located in " ++ pyStr canton ++ ", Switzerland"
  let d := d ++ (if pyTruthy organic then ", offering certified organic products"
                 else ", offering fresh local products")
  let d ←
    if pyTruthy products then
      match products with
      | .jarr l =>
        if l.length > 1 then do
          let strs ← (l.dropLast).mapM asStr
          let lastS ← asStr ((l.getLast?).getD .jnull)
          pure (d ++ ". They specialize in " ++ String.intercalate ", " strs ++ " and " ++ lastS)
        else pure (d ++ ". They specialize in " ++ pyStr ((l.head?).getD .jnull))
      | _ => .error "TypeError"
    else pure d
  pure (d ++ ".")

/- ### Field extraction (main.py lines 376-464) -/

/-- `v.get(k, d)` where `v` must be a dict (AttributeError otherwise). -/
def pyGet (v : JVal) (k : String) (d : JVal) : Except String JVal :=
  match v with
  | .jobj l => .ok (getD l k d)
  | _ => .error "AttributeError"

/-- The loop body of extract_long_name (main.py lines 378-380): each
component must be a dict; return its long_name once `level` occurs in its
types. -/
def extract_long_name_go (level : String) : List JVal → Except String JVal
  | [] => .ok (.jstr "")
  | component :: rest =>
    match component with
    | .jobj comp => do
      let b ← pyIn level (getD comp "types" (.jarr []))
      if b then pure (getD comp "long_name" (.jstr "")) else extract_long_name_go level rest
    | _ => .error "AttributeError"

/-- main.py lines 376-381: scan address_components for the given level.
Iterating a non-list raises TypeError, except that empty strings/dicts
iterate zero times and fall through to the final return. -/
def extract_long_name (address_components : JVal) (level : String) : Except String JVal :=
  match address_components with
  | .jarr l => extract_long_name_go level l
  | .jstr s => if s.isEmpty then .ok (.jstr "") else .error "AttributeError"
  | .jobj l => if l.isEmpty then .ok (.jstr "") else .error "AttributeError"
  | _ => .error "TypeError: not iterable"

/-- The per-shape fields the transformer extracts before its common tail. -/
structure Fields where
  lat : PyFloat
  lng : PyFloat
  address : JVal
  canton : JVal
  phone : JVal
  email : JVal
  organic : JVal
  hoursDict : List (String × JVal)

/-- main.py lines 397-421: extraction for already-cleaned records.  The
`try/except (ValueError, TypeError)` around both float conversions zeroes
BOTH coordinates when either conversion fails.  Total: this branch never
raises. -/
def extractNormalized (record : Obj) : Fields :=
  let v1 := getD record "latitude" (getD record "lat" (.jint 0))
  let v2 := getD record "longitude" (getD record "lng" (.jint 0))
  let ll :=
    match pyFloat v1, pyFloat v2 with
    | some a, some b => (a, b)
    | _, _ => (pfZero, pfZero)
  { lat := ll.1, lng := ll.2,
    address := getD record "address" (.jstr ""),
    canton := getD record "canton" (.jstr "Aargau"),
    phone := getD record "phone" (.jstr ""),
    email := getD record "email" (.jstr ""),
    organic := getD record "organic_certified" (getD record "organic" (.jbool false)),
    hoursDict :=
      match lookupJ record "opening_hours" with
      | some (.jobj l) => l
      | _ => [] }

/-- One coordinate of main.py lines 425-426:
`float(record.get("geometry", {}).get("location", {}).get(k, 0))` - note
there is NO try/except here: an unparseable value propagates an error. -/
def providerFloatOf (record : Obj) (k : String) : Except String PyFloat := do
  let loc ← pyGet (getD record "geometry" (.jobj [])) "location" (.jobj [])
  let v ← pyGet loc k (.jint 0)
  match pyFloat v with
  | some q => pure q
  | none => .error "ValueError: could not convert to float"

/-- main.py lines 425-426, both coordinates in source order. -/
def providerLatLng (record : Obj) : Except String (PyFloat × PyFloat) := do
  let lat ← providerFloatOf record "lat"
  let lng ← providerFloatOf record "lng"
  pure (lat, lng)

/-- The organic line of main.py line 439.  It short-circuits: the name is
only lower-cased when the explicit flag is falsy, and Python `or` returns
the flag value itself when it is truthy. -/
def organicProviderOf (record : Obj) (name : JVal) : Except String JVal :=
  if pyTruthy (getD record "organic_certified" (.jbool false)) then
    pure (getD record "organic_certified" (.jbool false))
  else do
    let ns ← asStr name
    pure (JVal.jbool (strContains (pyLower ns) "bio" || strContains (pyLower ns) "organic"))

/-- main.py lines 424-464: extraction for raw provider records, in source
order. -/
def extractProvider (record : Obj) (name : JVal) : Except String Fields := do
  let ll ← providerLatLng record
  let canton0 ← extract_long_name (getD record "address_components" (.jarr []))
    "administrative_area_level_1"
  let organic ← organicProviderOf record name
  let wdt ← pyGet (getD record "opening_hours" (.jobj [])) "weekday_text" (.jarr [])
  let hoursDict ← parseWeekdayText wdt
  pure { lat := ll.1, lng := ll.2,
         address := getD record "formatted_address" (.jstr ""),
         canton := if pyTruthy canton0 then canton0 else .jstr "Aargau",
         phone := getD record "formatted_phone_number" (.jstr ""),
         email := JVal.jstr "",
         organic := organic, hoursDict := hoursDict }

/- ### Record transformer (main.py lines 384-513) -/

/-- Punctuation stripped from image slugs (main.py line 491). -/
def punctChars : List Char :=
  [',', '.', ';', ':', '!', '?', '(', ')', '[', ']', '\x7b', '\x7d', '\x27', '\x22', '/', '\\']

/-- The slug cleanup of main.py lines 490-492. -/
def slugOf (name : String) : String :=
  String.mk (((strReplace (strReplace (pyLower name) " " "_") "-" "_").toList).filter
    fun c => !(punctChars.contains c))

/-- Everything the application-schema record is built from. -/
structure Parts where
  name : JVal
  description : JVal
  address : JVal
  canton : JVal
  phone : JVal
  email : JVal
  website : JVal
  hoursStr : String
  products : JVal
  organic : JVal
  lat : PyFloat
  lng : PyFloat
  image : JVal

/-- The shape dispatch of main.py lines 397 and 423: a record with a
top-level `latitude` or `lat` key is treated as already cleaned, anything
else as raw provider data. -/
def branchFields (record : Obj) (name : JVal) : Except String Fields :=
  if containsKey record "latitude" || containsKey record "lat" then
    pure (extractNormalized record)
  else extractProvider record name

/-- main.py lines 471-476: pass a truthy products value through, else
generate likely products from the (necessarily string) name. -/
def productsOf (record : Obj) (name : JVal) : Except String JVal :=
  if pyTruthy (getD record "products" (.jarr [])) then
    pure (getD record "products" (.jarr []))
  else do
    let ns ← asStr name
    pure (JVal.jarr ((generate_products_from_name ns).map .jstr))

/-- main.py lines 482-484: keep a truthy description, else synthesize. -/
def descriptionOf (record : Obj) (name : JVal) (f : Fields) (products : JVal) :
    Except String JVal :=
  let d0 := getD record "description" (.jstr "")
  if pyTruthy d0 then pure d0
  else do
    let s ← generate_description name f.canton f.organic products
    pure (JVal.jstr s)

/-- main.py lines 487-493: keep a truthy image, else slug the name. -/
def imageOf (record : Obj) (name : JVal) : Except String JVal :=
  let i0 := getD record "image" (.jstr "")
  if pyTruthy i0 then pure i0
  else do
    let ns ← asStr name
    pure (JVal.jstr (slugOf ns ++ ".jpg"))

/-- main.py lines 390-493: the body of transform_record up to the final
dict literal, in source order.  (The google_maps_url computed at lines
466-469 is not part of the application schema built at line 496 and is
omitted.) -/
def computeParts (record : Obj) : Except String Parts := do
  let name := getD record "name" (.jstr "")
  let f ← branchFields record name
  let products ← productsOf record name
  let hoursStr ← format_opening_hours_to_string f.hoursDict
  let description ← descriptionOf record name f products
  let image ← imageOf record name
  pure { name := name, description := description, address := f.address, canton := f.canton,
         phone := f.phone, email := f.email, website := getD record "website" (.jstr ""),
         hoursStr := hoursStr, products := products, organic := f.organic,
         lat := f.lat, lng := f.lng, image := image }

/-- The dict literal of main.py lines 496-511. -/
def buildRecord (record_id : Int) (p : Parts) : Obj :=
  [("id", .jint record_id), ("name", p.name), ("description", p.description),
   ("address", p.address), ("canton", p.canton), ("phone", p.phone), ("email", p.email),
   ("website", p.website),
   ("opening_hours", .jstr (if p.hoursStr.isEmpty then fallbackHours else p.hoursStr)),
   ("products", p.products), ("organic", p.organic),
   ("lat", .jfloat p.lat), ("lng", .jfloat p.lng), ("image", p.image)]

/-- main.py lines 384-513: transform one raw record into the application
schema.  A bare string input raises ValueError; any structured record goes
through `computeParts`. -/
def transform_record (recordV : JVal) (record_id : Int) : Except String Obj :=
  match recordV with
  | .jstr s => .error ("Record is a string value: " ++ s)
  | .jobj record => (computeParts record).map (buildRecord record_id)
  | _ => .error "AttributeError"

/-- main.py lines 227-234: transform with ids enumerated from 1 over the
deduplicated input, skipping (and only skipping) records whose transform
raises.  Note the id counter advances with the input position, not with
the output position. -/
def transformAllAux : Nat → List JVal → List Obj
  | _, [] => []
  | idx, r :: rest =>
    match transform_record r (idx : Int) with
    | .ok t => t :: transformAllAux (idx + 1) rest
    | .error _ => transformAllAux (idx + 1) rest

/-- The transform stage of the etl command (main.py lines 227-234). -/
def transformAll (raws : List JVal) : List Obj :=
  transformAllAux 1 raws

/- ### Ingestion and dedup (main.py lines 173-219) -/

/-- The dedup key: `record.get('name', '')`. -/
def nameOf (r : Obj) : JVal := getD r "name" (.jstr "")

/-- main.py lines 189-196 (same loop at 204-211): keep dict records whose
name is truthy and unseen, in order, extending the seen-set. -/
def ingestRecords (seen : List JVal) (acc : List Obj) : List JVal → List JVal × List Obj
  | [] => (seen, acc)
  | v :: rest =>
    match v with
    | .jobj r =>
      if pyTruthy (nameOf r) && !(seen.any fun s => jeq s (nameOf r)) then
        ingestRecords (seen ++ [nameOf r]) (acc ++ [r]) rest
      else ingestRecords seen acc rest
    | _ => ingestRecords seen acc rest

/-- main.py lines 186-217: one parsed JSON source - a list of records, a
`farmshops` wrapper around a list, or a single record.  The single-record
branch (lines 213-217) repeats the loop body verbatim for one record,
which is exactly `ingestRecords` on a singleton list. -/
def ingestFile (seen : List JVal) (acc : List Obj) (file : JVal) : List JVal × List Obj :=
  match file with
  | .jarr l => ingestRecords seen acc l
  | .jobj r =>
    match lookupJ r "farmshops" with
    | some (.jarr l) => ingestRecords seen acc l
    | _ => ingestRecords seen acc [.jobj r]
  | _ => (seen, acc)

/-- One file-processing step of the ingestion fold. -/
def ingestStep (p : List JVal × List Obj) (f : JVal) : List JVal × List Obj :=
  ingestFile p.1 p.2 f

/-- main.py lines 173-219: ingest all parsed sources in order into the
deduplicated raw-record list. -/
def ingest (files : List JVal) : List Obj :=
  (files.foldl ingestStep ([], [])).2

/-- The candidate record stream in source-then-insertion order: exactly the
dict records the ingestion loops examine, in examination order.  Used to
state first-occurrence-wins. -/
def candidateRecords (file : JVal) : List Obj :=
  match file with
  | .jarr l => l.filterMap fun v => match v with | .jobj r => some r | _ => none
  | .jobj r =>
    match lookupJ r "farmshops" with
    | some (.jarr l) => l.filterMap fun v => match v with | .jobj r2 => some r2 | _ => none
    | _ => [r]
  | _ => []

/-- All candidate records across all sources, in examination order. -/
def rawSeq (files : List JVal) : List Obj :=
  (files.map candidateRecords).flatten

/- ### Strict schema validator (etl_farmshops.py lines 144-189) -/

/-- `isinstance(v, type(ref))`: runtime-type match, except that Python's
bool is a subclass of int, so a bool value passes an int reference
(etl_farmshops.py line 180, main.py line 265). -/
def pyIsinstanceTypeOf (v ref : JVal) : Bool :=
  match ref, v with
  | .jint _, .jint _ => true
  | .jint _, .jbool _ => true
  | .jbool _, .jbool _ => true
  | .jfloat _, .jfloat _ => true
  | .jstr _, .jstr _ => true
  | .jarr _, .jarr _ => true
  | .jobj _, .jobj _ => true
  | .jnull, .jnull => true
  | _, _ => false

/-- `record_keys == schema_keys` as Python sets (dict keys are unique). -/
def keySetEq (r s : Obj) : Bool :=
  (r.all fun p => containsKey s p.1) && (s.all fun p => containsKey r p.1)

/-- etl_farmshops.py lines 161-183: one record passes the strict check. -/
def recordPasses (schema_reference : Obj) (record : Obj) : Bool :=
  keySetEq record schema_reference &&
    schema_reference.all fun p => pyIsinstanceTypeOf ((lookupJ record p.1).getD .jnull) p.2

/-- etl_farmshops.py lines 144-189: strict batch validation.  Returns false
as soon as one record fails; reads but never writes the records (the Lean
function is pure and returns only a Bool).  The schema file loading around
it is I/O; the reference record is passed directly. -/
def validate_schema (records : List Obj) (schema_reference : Obj) : Bool :=
  records.all (recordPasses schema_reference)

/- ### Lenient schema reconciler (main.py lines 256-280) -/

/-- `type(x)()` - the zero value of a value's runtime type (main.py
lines 264, 280). -/
def zeroOf : JVal → JVal
  | .jint _ => .jint 0
  | .jbool _ => .jbool false
  | .jfloat _ => .jfloat pfZero
  | .jstr _ => .jstr ""
  | .jarr _ => .jarr []
  | .jobj _ => .jobj []
  | .jnull => .jnull

/-- main.py lines 266-280: best-effort coercion of a type-mismatched value
toward the reference value's type; zero value of the reference type when
the conversion raises.  Reached only when `isinstance(v, type(ref))` is
false.  A bool reference dispatches Python's int branch (bool is a
subclass of int, so `isinstance(ref, int)` holds and `int()` is applied);
a None reference matches no branch and leaves the value unchanged. -/
def coerceField (refv v : JVal) : JVal :=
  match refv with
  | .jfloat _ => (match pyFloat v with | some q => .jfloat q | none => zeroOf refv)
  | .jint _ => (match pyIntOf v with | some n => .jint n | none => zeroOf refv)
  | .jbool _ => (match pyIntOf v with | some n => .jint n | none => zeroOf refv)
  | .jstr _ => .jstr (pyStr v)
  | .jarr _ => .jarr []
  | .jobj _ => .jobj []
  | .jnull => v

/-- main.py lines 258-259: an empty opening_hours dict is replaced by the
fallback string before key reconciliation. -/
def fixOpeningHours (record : Obj) : Obj :=
  match lookupJ record "opening_hours" with
  | some (.jobj []) => dictSet record "opening_hours" (.jstr fallbackHours)
  | _ => record

/-- One iteration of the key loop of main.py lines 262-280: default an
absent key to the zero value of its reference type, coerce a present but
type-mismatched value, leave a type-matched value alone. -/
def reconcileStep (r0 : Obj) (p : String × JVal) : Obj :=
  match lookupJ r0 p.1 with
  | none => dictSet r0 p.1 (zeroOf p.2)
  | some v => if pyIsinstanceTypeOf v p.2 then r0 else dictSet r0 p.1 (coerceField p.2 v)

/-- main.py lines 262-280: run the key loop over every schema key. -/
def reconcileKeys (schema_reference : Obj) (record : Obj) : Obj :=
  schema_reference.foldl reconcileStep record

/-- main.py lines 256-280: the lenient reconciler on one record. -/
def reconcileRecord (schema_reference : Obj) (record : Obj) : Obj :=
  reconcileKeys schema_reference (fixOpeningHours record)

/- ### Cleaner organic inference (cleaner.py lines 118-140) -/

/-- cleaner.py line 135. -/
def organic_keywords : List String :=
  ["bio", "organic", "öko", "naturkost", "demeter", "knospe"]

/-- The `types` comprehension of cleaner.py line 132 (its result is unused
by the source, but evaluating it can raise). -/
def typesLowered (tv : JVal) : Except String (List String) :=
  match tv with
  | .jarr l => l.mapM fun t => do let s ← asStr t; pure (pyLower s)
  | .jstr s => .ok (s.toList.map fun c => pyLower (String.mk [c]))
  | .jobj l => .ok (l.map fun p => pyLower p.1)
  | _ => .error "TypeError: not iterable"

/-- cleaner.py lines 118-140: the DataCleaner heuristic.  It inspects only
the lower-cased name and never consults an explicit organic_certified
flag. -/
def infer_organic_status (place : Obj) : Except String Bool := do
  let name ← asStr (getD place "name" (.jstr ""))
  let _types ← typesLowered (getD place "types" (.jarr []))
  pure (organic_keywords.any fun kw => strContains (pyLower name) kw)

example : format_opening_hours_to_string
    [("Mon", .jstr "9:00-18:00"), ("Tue", .jstr "9:00-18:00"), ("Wed", .jstr "9:00-18:00"),
     ("Sat", .jstr "9:00-16:00")] = .ok "Mon-Wed: 9:00-18:00, Sat: 9:00-16:00" := by rfl

example : format_opening_hours_to_string [] = .ok fallbackHours := by rfl

example : format_opening_hours_to_string [("Sun", .jstr "9-5"), ("Foo", .jstr "9-5")]
    = .ok "Sun-Foo: 9-5" := by rfl

example : generate_products_from_name "Demeter Hof" = ["vegetables", "fruits", "dairy"] := by decide

example : generate_products_from_name "Bäckerei Meier" = ["eggs", "bakery"] := by decide

/- ### General lemmas about the embedding -/

theorem exBind_ok {α β : Type} {a : Except String α} {f : α → Except String β} {c : β}
    (h : a >>= f = .ok c) : ∃ x, a = .ok x ∧ f x = .ok c := by
  cases a with
  | ok x => exact ⟨x, rfl, h⟩
  | error e => exact absurd h (by simp [Bind.bind, Except.bind])

theorem exMap_ok {α β : Type} {g : α → β} {a : Except String α} {c : β}
    (h : Except.map g a = .ok c) : ∃ x, a = .ok x ∧ g x = c := by
  cases a with
  | ok x =>
    refine ⟨x, rfl, ?_⟩
    simpa [Except.map] using h
  | error e => exact absurd h (by simp [Except.map])

theorem lookupJ_dictSet_self (r : Obj) (k : String) (v : JVal) :
    lookupJ (dictSet r k v) k = some v := by
  induction r with
  | nil => simp [dictSet, lookupJ]
  | cons p rest ih =>
    obtain ⟨k0, v0⟩ := p
    by_cases hk : k0 = k
    · simp [dictSet, hk, lookupJ]
    · simp [dictSet, hk, lookupJ, ih]

theorem lookupJ_dictSet_ne (r : Obj) (k k2 : String) (v : JVal) (h : k2 ≠ k) :
    lookupJ (dictSet r k v) k2 = lookupJ r k2 := by
  have h2 : ¬ k = k2 := fun hh => h hh.symm
  induction r with
  | nil => simp [dictSet, lookupJ, h2]
  | cons p rest ih =>
    obtain ⟨k0, v0⟩ := p
    by_cases hk : k0 = k
    · subst hk
      simp [dictSet, lookupJ, h2]
    · simp [dictSet, hk, lookupJ, ih]

theorem dictSet_of_not_mem (r : Obj) (k : String) (v : JVal)
    (h : lookupJ r k = none) : dictSet r k v = r ++ [(k, v)] := by
  induction r with
  | nil => simp [dictSet]
  | cons p rest ih =>
    obtain ⟨k0, v0⟩ := p
    by_cases hk : k0 = k
    · simp [lookupJ, hk] at h
    · simp [lookupJ, hk] at h
      simp [dictSet, hk, ih h]

theorem lookupJ_eq_none_of_not_mem (r : Obj) (k : String)
    (h : ∀ p ∈ r, p.1 ≠ k) : lookupJ r k = none := by
  induction r with
  | nil => rfl
  | cons p rest ih =>
    obtain ⟨k0, v0⟩ := p
    have h0 : k0 ≠ k := h (k0, v0) (by simp)
    simp [lookupJ, h0]
    exact ih fun q hq => h q (by simp [hq])

theorem mem_of_lookupJ_some {r : Obj} {k : String} {v : JVal}
    (h : lookupJ r k = some v) : (k, v) ∈ r := by
  induction r with
  | nil => simp [lookupJ] at h
  | cons p rest ih =>
    obtain ⟨k0, v0⟩ := p
    by_cases hk : k0 = k
    · subst hk
      simp [lookupJ] at h
      simp [h]
    · simp [lookupJ, hk] at h
      simp [ih h]

theorem containsKey_of_mem {r : Obj} {p : String × JVal} (h : p ∈ r) :
    containsKey r p.1 = true := by
  induction r with
  | nil => simp at h
  | cons q rest ih =>
    obtain ⟨k0, v0⟩ := q
    rcases List.mem_cons.mp h with h1 | h2
    · subst h1
      simp [containsKey, lookupJ]
    · by_cases hk : k0 = p.1
      · simp [containsKey, lookupJ, hk]
      · simpa [containsKey, lookupJ, hk] using ih h2

/- ### Inversion of the transformer pipeline -/

theorem computeParts_ok {record : Obj} {p : Parts} (h : computeParts record = .ok p) :
    ∃ f products hoursStr description image,
      branchFields record (getD record "name" (.jstr "")) = .ok f ∧
      productsOf record (getD record "name" (.jstr "")) = .ok products ∧
      format_opening_hours_to_string f.hoursDict = .ok hoursStr ∧
      descriptionOf record (getD record "name" (.jstr "")) f products = .ok description ∧
      imageOf record (getD record "name" (.jstr "")) = .ok image ∧
      p = { name := getD record "name" (.jstr ""), description := description,
            address := f.address, canton := f.canton, phone := f.phone, email := f.email,
            website := getD record "website" (.jstr ""), hoursStr := hoursStr,
            products := products, organic := f.organic, lat := f.lat, lng := f.lng,
            image := image } := by
  unfold computeParts at h
  obtain ⟨f, hf, h⟩ := exBind_ok h
  obtain ⟨products, hp, h⟩ := exBind_ok h
  obtain ⟨hoursStr, hh, h⟩ := exBind_ok h
  obtain ⟨description, hd, h⟩ := exBind_ok h
  obtain ⟨image, hi, h⟩ := exBind_ok h
  refine ⟨f, products, hoursStr, description, image, hf, hp, hh, hd, hi, ?_⟩
  have := h
  simp only [pure, Except.pure] at this
  exact (Except.ok.injEq _ _).mp this |>.symm

theorem transform_record_ok {record : Obj} {i : Int} {c : Obj}
    (h : transform_record (.jobj record) i = .ok c) :
    ∃ p, computeParts record = .ok p ∧ c = buildRecord i p := by
  unfold transform_record at h
  obtain ⟨p, hp, hc⟩ := exMap_ok h
  exact ⟨p, hp, hc.symm⟩

theorem lookup_buildRecord_id (i : Int) (p : Parts) :
    lookupJ (buildRecord i p) "id" = some (.jint i) := rfl

theorem lookup_buildRecord_hours (i : Int) (p : Parts) :
    lookupJ (buildRecord i p) "opening_hours"
      = some (.jstr (if p.hoursStr.isEmpty then fallbackHours else p.hoursStr)) := rfl

theorem lookup_buildRecord_products (i : Int) (p : Parts) :
    lookupJ (buildRecord i p) "products" = some p.products := rfl

theorem lookup_buildRecord_organic (i : Int) (p : Parts) :
    lookupJ (buildRecord i p) "organic" = some p.organic := rfl

theorem organicProviderOf_ok {record : Obj} {name organic : JVal}
    (h : organicProviderOf record name = .ok organic) :
    (pyTruthy (getD record "organic_certified" (.jbool false)) = true ∧
       organic = getD record "organic_certified" (.jbool false)) ∨
    (pyTruthy (getD record "organic_certified" (.jbool false)) = false ∧
       ∃ ns, asStr name = .ok ns ∧
         organic = .jbool (strContains (pyLower ns) "bio" ||
                           strContains (pyLower ns) "organic")) := by
  unfold organicProviderOf at h
  cases htv : pyTruthy (getD record "organic_certified" (.jbool false)) with
  | true =>
    left
    rw [htv] at h
    rw [if_pos rfl] at h
    exact ⟨rfl, (Except.ok.inj h).symm⟩
  | false =>
    right
    rw [htv] at h
    simp only [Bool.false_eq_true, if_false] at h
    obtain ⟨ns, hns, h2⟩ := exBind_ok h
    exact ⟨rfl, ns, hns, (Except.ok.inj h2).symm⟩


theorem extractProvider_ok {record : Obj} {name : JVal} {f : Fields}
    (h : extractProvider record name = .ok f) :
    ∃ ll canton0 organic hoursDict,
      providerLatLng record = .ok ll ∧
      extract_long_name (getD record "address_components" (.jarr []))
        "administrative_area_level_1" = .ok canton0 ∧
      organicProviderOf record name = .ok organic ∧
      (∃ wdt, pyGet (getD record "opening_hours" (.jobj [])) "weekday_text" (.jarr []) = .ok wdt ∧
         parseWeekdayText wdt = .ok hoursDict) ∧
      f = { lat := ll.1, lng := ll.2,
            address := getD record "formatted_address" (.jstr ""),
            canton := if pyTruthy canton0 then canton0 else .jstr "Aargau",
            phone := getD record "formatted_phone_number" (.jstr ""),
            email := JVal.jstr "", organic := organic, hoursDict := hoursDict } := by
  unfold extractProvider at h
  obtain ⟨ll, hll, h⟩ := exBind_ok h
  obtain ⟨canton0, hc, h⟩ := exBind_ok h
  obtain ⟨organic, ho, h⟩ := exBind_ok h
  obtain ⟨wdt, hw, h⟩ := exBind_ok h
  obtain ⟨hoursDict, hhd, h⟩ := exBind_ok h
  exact ⟨ll, canton0, organic, hoursDict, hll, hc, ho, ⟨wdt, hw, hhd⟩,
    (Except.ok.inj h).symm⟩

theorem isEmpty_false_ne_empty {s : String} (h : s.isEmpty = false) : s ≠ "" := by
  intro he
  subst he
  exact absurd h (by decide)

/-- Claim C9: a raw record whose opening-hours data is absent or an empty
mapping transforms to a canonical record whose opening_hours field is the
fixed fallback string; formatting an empty mapping yields that fallback;
and the opening_hours field built by the transformer is never the empty
string. -/
theorem c9_hours_fallback :
    format_opening_hours_to_string [] = .ok fallbackHours ∧
    (∀ (i : Int) (p : Parts) (s : String),
      lookupJ (buildRecord i p) "opening_hours" = some (.jstr s) → s ≠ "") ∧
    (∀ (record : Obj) (i : Int) (c : Obj),
      (lookupJ record "opening_hours" = none ∨
        lookupJ record "opening_hours" = some (.jobj [])) →
      transform_record (.jobj record) i = .ok c →
      lookupJ c "opening_hours" = some (.jstr fallbackHours)) := by
  refine ⟨rfl, ?_, ?_⟩
  · intro i p s hs
    rw [lookup_buildRecord_hours] at hs
    have hse2 := JVal.jstr.inj (Option.some.inj hs)
    by_cases he : p.hoursStr.isEmpty
    · rw [if_pos he] at hse2
      subst hse2
      decide
    · rw [if_neg he] at hse2
      subst hse2
      exact isEmpty_false_ne_empty (Bool.not_eq_true _ ▸ he)
  · intro record i c hoh htr
    obtain ⟨p, hcp, hcb⟩ := transform_record_ok htr
    obtain ⟨f, products, hoursStr, description, image, hf, hprod, hfmt, hdesc, him, hp⟩ :=
      computeParts_ok hcp
    have hgetd : getD record "opening_hours" (.jobj []) = .jobj [] := by
      rcases hoh with h1 | h1 <;> simp [getD, h1]
    have hdict : f.hoursDict = [] := by
      unfold branchFields at hf
      by_cases hb : (containsKey record "latitude" || containsKey record "lat") = true
      · rw [if_pos hb] at hf
        have hfe : f = extractNormalized record := (Except.ok.inj hf).symm
        subst hfe
        unfold extractNormalized
        rcases hoh with h1 | h1 <;> simp [h1]
      · rw [if_neg hb] at hf
        obtain ⟨ll, canton0, organic, hoursDict, _, _, _, ⟨wdt, hw, hpd⟩, hfe⟩ :=
          extractProvider_ok hf
        rw [hgetd] at hw
        have hwdt : wdt = .jarr [] := by
          have hw2 : (Except.ok (JVal.jarr []) : Except String JVal) = Except.ok wdt := by
            simpa [pyGet, getD, lookupJ] using hw
          exact (Except.ok.inj hw2).symm
        subst hwdt
        have hhd : hoursDict = [] := by
          have hpd2 : (Except.ok [] : Except String (List (String × JVal))) = Except.ok hoursDict := by
            simpa [parseWeekdayText, pyTruthy] using hpd
          exact (Except.ok.inj hpd2).symm
        rw [hfe, hhd]
    rw [hdict] at hfmt
    have hhs : hoursStr = fallbackHours := by
      have h2 : (Except.ok fallbackHours : Except String String) = Except.ok hoursStr := by
        simpa [format_opening_hours_to_string] using hfmt
      exact (Except.ok.inj h2).symm
    subst hhs
    rw [hcb, hp]
    rfl

theorem productsOf_ok {record : Obj} {name products : JVal}
    (h : productsOf record name = .ok products) :
    (pyTruthy (getD record "products" (.jarr [])) = true ∧
       products = getD record "products" (.jarr [])) ∨
    (pyTruthy (getD record "products" (.jarr [])) = false ∧
       ∃ ns, asStr name = .ok ns ∧
         products = .jarr ((generate_products_from_name ns).map .jstr)) := by
  unfold productsOf at h
  cases htv : pyTruthy (getD record "products" (.jarr [])) with
  | true =>
    left
    rw [htv, if_pos rfl] at h
    exact ⟨rfl, (Except.ok.inj h).symm⟩
  | false =>
    right
    rw [htv] at h
    simp only [Bool.false_eq_true, if_false] at h
    obtain ⟨ns, hns, h2⟩ := exBind_ok h
    exact ⟨rfl, ns, hns, (Except.ok.inj h2).symm⟩

theorem generate_products_ne_nil (name : String) :
    generate_products_from_name name ≠ [] := by
  show (if ((product_categories.filter fun p => p.2.any fun kw =>
        strContains (pyLower name) kw).map (·.1)).isEmpty then
      ["vegetables", "fruits", "dairy"]
    else (product_categories.filter fun p => p.2.any fun kw =>
        strContains (pyLower name) kw).map (·.1)) ≠ []
  by_cases he : ((product_categories.filter fun p => p.2.any fun kw =>
      strContains (pyLower name) kw).map (·.1)).isEmpty
  · rw [if_pos he]
    simp
  · rw [if_neg he]
    intro hn
    rw [hn] at he
    exact he rfl

/-- Claim C10: product inference always returns a non-empty list - the
fixed default when no category keyword matches the lower-cased name - and
hence a canonical record whose input had an absent or empty products list
leaves the transformer with a non-empty products list. -/
theorem c10_products_nonempty :
    (∀ name : String, generate_products_from_name name ≠ []) ∧
    (∀ name : String,
      (∀ p ∈ product_categories, ∀ kw ∈ p.2, strContains (pyLower name) kw = false) →
      generate_products_from_name name = ["vegetables", "fruits", "dairy"]) ∧
    (∀ (record : Obj) (i : Int) (c : Obj),
      (lookupJ record "products" = none ∨ lookupJ record "products" = some (.jarr [])) →
      transform_record (.jobj record) i = .ok c →
      ∃ l, lookupJ c "products" = some (.jarr l) ∧ l ≠ []) := by
  refine ⟨generate_products_ne_nil, ?_, ?_⟩
  · intro name h
    show (if ((product_categories.filter fun p => p.2.any fun kw =>
          strContains (pyLower name) kw).map (·.1)).isEmpty then
        ["vegetables", "fruits", "dairy"]
      else (product_categories.filter fun p => p.2.any fun kw =>
          strContains (pyLower name) kw).map (·.1)) = ["vegetables", "fruits", "dairy"]
    have hfil : (product_categories.filter fun p => p.2.any fun kw =>
        strContains (pyLower name) kw) = [] := by
      rw [List.filter_eq_nil_iff]
      intro p hp
      simp only [Bool.not_eq_true, List.any_eq_false]
      intro kw hkw
      exact h p hp kw hkw
    rw [hfil]
    rfl
  · intro record i c hpr htr
    obtain ⟨p, hcp, hcb⟩ := transform_record_ok htr
    obtain ⟨f, products, hoursStr, description, image, hf, hprod, hfmt, hdesc, him, hp⟩ :=
      computeParts_ok hcp
    have hgetd : getD record "products" (.jarr []) = .jarr [] := by
      rcases hpr with h1 | h1 <;> simp [getD, h1]
    rcases productsOf_ok hprod with ⟨ht, _⟩ | ⟨_, ns, hns, hpv⟩
    · rw [hgetd] at ht
      exact absurd ht (by decide)
    · refine ⟨(generate_products_from_name ns).map .jstr, ?_, ?_⟩
      · rw [hcb, hp, lookup_buildRecord_products]
        simp [hpv]
      · intro hn
        exact generate_products_ne_nil ns (by simpa using hn)

/-- Claim C10 witness: a record with no products list gets the default
product list, which is non-empty. -/
theorem c10_witness :
    ∃ l, lookupJ [("id", .jint 1), ("name", .jstr "Zz"), ("description", .jstr "d"),
        ("address", .jstr ""), ("canton", .jstr "Aargau"), ("phone", .jstr ""),
        ("email", .jstr ""), ("website", .jstr ""), ("opening_hours", .jstr fallbackHours),
        ("products", .jarr [.jstr "vegetables", .jstr "fruits", .jstr "dairy"]),
        ("organic", .jbool false), ("lat", .jfloat pfZero), ("lng", .jfloat pfZero),
        ("image", .jstr "i")] "products" = some (.jarr l) ∧ l ≠ [] :=
  c10_products_nonempty.2.2
    [("name", .jstr "Zz"), ("description", .jstr "d"), ("image", .jstr "i")] 1
    [("id", .jint 1), ("name", .jstr "Zz"), ("description", .jstr "d"),
     ("address", .jstr ""), ("canton", .jstr "Aargau"), ("phone", .jstr ""),
     ("email", .jstr ""), ("website", .jstr ""), ("opening_hours", .jstr fallbackHours),
     ("products", .jarr [.jstr "vegetables", .jstr "fruits", .jstr "dairy"]),
     ("organic", .jbool false), ("lat", .jfloat pfZero), ("lng", .jfloat pfZero),
     ("image", .jstr "i")] (Or.inl rfl) rfl

/-- Claim C9 witness: a record without opening hours transforms to the
fallback opening-hours string. -/
theorem c9_witness :
    lookupJ [("id", .jint 1), ("name", .jstr "W"), ("description", .jstr "d"),
        ("address", .jstr ""), ("canton", .jstr "Aargau"), ("phone", .jstr ""),
        ("email", .jstr ""), ("website", .jstr ""), ("opening_hours", .jstr fallbackHours),
        ("products", .jarr [.jstr "vegetables", .jstr "fruits", .jstr "dairy"]),
        ("organic", .jbool false), ("lat", .jfloat pfZero), ("lng", .jfloat pfZero),
        ("image", .jstr "i")] "opening_hours" = some (.jstr fallbackHours) :=
  c9_hours_fallback.2.2
    [("name", .jstr "W"), ("description", .jstr "d"), ("image", .jstr "i")] 1
    [("id", .jint 1), ("name", .jstr "W"), ("description", .jstr "d"),
     ("address", .jstr ""), ("canton", .jstr "Aargau"), ("phone", .jstr ""),
     ("email", .jstr ""), ("website", .jstr ""), ("opening_hours", .jstr fallbackHours),
     ("products", .jarr [.jstr "vegetables", .jstr "fruits", .jstr "dairy"]),
     ("organic", .jbool false), ("lat", .jfloat pfZero), ("lng", .jfloat pfZero),
     ("image", .jstr "i")] (Or.inl rfl) rfl

/-- Claim C4 counterexample: the name "Demeter Hof" contains the keyword
"demeter" and carries no organic_certified flag, so the claim says the
inferred organic flag must be true; the record transformer (provider
shape) checks only "bio" and "organic" and yields false. -/
theorem c4_counterexample :
    (match transform_record (.jobj [("name", .jstr "Demeter Hof")]) 1 with
     | .ok c => lookupJ c "organic"
     | .error _ => none) = some (.jbool false) ∧
    strContains (pyLower "Demeter Hof") "demeter" = true ∧
    lookupJ [("name", JVal.jstr "Demeter Hof")] "organic_certified" = none :=
  ⟨rfl, by decide, rfl⟩

/-- Claim C4 (amended): in the record transformer's provider branch the
organic flag is the explicit organic_certified value when truthy, else
true exactly when "bio" or "organic" (two keywords only) occurs
case-insensitively in the name; the six-keyword inference lives in the
cleaner's heuristic, which consults the name only and never an explicit
flag. -/
theorem c4_organic_inference :
    (∀ (record : Obj) (n : String) (b : Bool) (c : Obj) (i : Int),
      (containsKey record "latitude" || containsKey record "lat") = false →
      getD record "name" (.jstr "") = .jstr n →
      getD record "organic_certified" (.jbool false) = .jbool b →
      transform_record (.jobj record) i = .ok c →
      lookupJ c "organic" = some (.jbool (b ||
        (strContains (pyLower n) "bio" || strContains (pyLower n) "organic")))) ∧
    (∀ (place : Obj) (n : String) (r : Bool),
      getD place "name" (.jstr "") = .jstr n →
      infer_organic_status place = .ok r →
      (r = true ↔ ∃ kw ∈ organic_keywords, strContains (pyLower n) kw = true)) := by
  constructor
  · intro record n b c i hbr hname hflag htr
    obtain ⟨p, hcp, hcb⟩ := transform_record_ok htr
    obtain ⟨f, products, hoursStr, description, image, hf, hprod, hfmt, hdesc, him, hp⟩ :=
      computeParts_ok hcp
    unfold branchFields at hf
    rw [hbr] at hf
    simp only [Bool.false_eq_true, if_false] at hf
    obtain ⟨ll, canton0, organic, hoursDict, _, _, ho, _, hfe⟩ := extractProvider_ok hf
    have horg : organic = .jbool (b ||
        (strContains (pyLower n) "bio" || strContains (pyLower n) "organic")) := by
      rcases organicProviderOf_ok ho with ⟨ht, hv⟩ | ⟨ht, ns, hns, hv⟩
      · rw [hflag] at ht hv
        have hb : b = true := by simpa [pyTruthy] using ht
        subst hb
        simp [hv]
      · rw [hflag] at ht
        have hb : b = false := by simpa [pyTruthy] using ht
        subst hb
        rw [hname] at hns
        have hns2 : ns = n := by
          have : (Except.ok n : Except String String) = Except.ok ns := by
            simpa [asStr] using hns
          exact (Except.ok.inj this).symm
        subst hns2
        simp [hv]
    rw [hcb, hp, lookup_buildRecord_organic]
    simp [hfe, horg]
  · intro place n r hname h
    unfold infer_organic_status at h
    rw [hname] at h
    obtain ⟨ns, hns, h⟩ := exBind_ok h
    have hns2 : ns = n := by
      have h9 : (Except.ok n : Except String String) = Except.ok ns := by
        simpa [asStr] using hns
      exact (Except.ok.inj h9).symm
    obtain ⟨ts, hts, h⟩ := exBind_ok h
    have hr : r = organic_keywords.any fun kw => strContains (pyLower ns) kw :=
      (Except.ok.inj h).symm
    rw [hr, hns2]
    exact List.any_eq_true

/-- Claim C4 witness: the name "Biohof" with no explicit flag gets
organic = true through the provider branch of the transformer. -/
theorem c4_witness :
    lookupJ [("id", .jint 1), ("name", .jstr "Biohof"), ("description", .jstr "d"),
        ("address", .jstr ""), ("canton", .jstr "Aargau"), ("phone", .jstr ""),
        ("email", .jstr ""), ("website", .jstr ""), ("opening_hours", .jstr fallbackHours),
        ("products", .jarr [.jstr "vegetables", .jstr "fruits", .jstr "dairy"]),
        ("organic", .jbool true), ("lat", .jfloat pfZero), ("lng", .jfloat pfZero),
        ("image", .jstr "i")] "organic"
      = some (.jbool (false ||
          (strContains (pyLower "Biohof") "bio" || strContains (pyLower "Biohof") "organic"))) :=
  c4_organic_inference.1
    [("name", .jstr "Biohof"), ("description", .jstr "d"), ("image", .jstr "i")]
    "Biohof" false
    [("id", .jint 1), ("name", .jstr "Biohof"), ("description", .jstr "d"),
     ("address", .jstr ""), ("canton", .jstr "Aargau"), ("phone", .jstr ""),
     ("email", .jstr ""), ("website", .jstr ""), ("opening_hours", .jstr fallbackHours),
     ("products", .jarr [.jstr "vegetables", .jstr "fruits", .jstr "dairy"]),
     ("organic", .jbool true), ("lat", .jfloat pfZero), ("lng", .jfloat pfZero),
     ("image", .jstr "i")] 1 rfl rfl rfl rfl

/-- Claim C1 counterexample: in the provider shape a non-numeric latitude
makes `float(...)` raise (main.py line 425 has no try/except), so the
transform propagates an error instead of returning a record with
lat = 0.0. -/
theorem c1_counterexample :
    transform_record (.jobj [("name", .jstr "B"),
        ("geometry", .jobj [("location", .jobj [("lat", .jstr "abc"), ("lng", .jint 1)])])]) 1
      = .error "ValueError: could not convert to float" ∧
    pyFloat (.jstr "abc") = none :=
  ⟨rfl, rfl⟩

/-- Claim C1 (amended): in the normalized shape, lat/lng extraction is
total - each coordinate is 0.0 whenever its source is absent, and both are
zeroed together when either present value is unparseable; in the provider
shape an absent geometry defaults both coordinates to 0.0, while a
non-numeric value raises (see the counterexample). -/
theorem c1_latlng_defaults :
    (∀ record : Obj,
      (pyFloat (getD record "latitude" (getD record "lat" (.jint 0))) = none ∨
       pyFloat (getD record "longitude" (getD record "lng" (.jint 0))) = none) →
      (extractNormalized record).lat = pfZero ∧ (extractNormalized record).lng = pfZero) ∧
    (∀ record : Obj, lookupJ record "latitude" = none → lookupJ record "lat" = none →
      (extractNormalized record).lat = pfZero) ∧
    (∀ record : Obj, lookupJ record "longitude" = none → lookupJ record "lng" = none →
      (extractNormalized record).lng = pfZero) ∧
    (∀ record : Obj, lookupJ record "geometry" = none →
      providerLatLng record = .ok (pfZero, pfZero)) := by
  refine ⟨?_, ?_, ?_, ?_⟩
  · intro record h
    cases h1 : pyFloat (getD record "latitude" (getD record "lat" (.jint 0))) with
    | none =>
      cases h2 : pyFloat (getD record "longitude" (getD record "lng" (.jint 0))) <;>
        simp [extractNormalized, h1, h2]
    | some a =>
      cases h2 : pyFloat (getD record "longitude" (getD record "lng" (.jint 0))) with
      | none => simp [extractNormalized, h1, h2]
      | some b =>
        rcases h with h | h
        · rw [h1] at h; exact absurd h (by simp)
        · rw [h2] at h; exact absurd h (by simp)
  · intro record h1 h2
    have hv : getD record "latitude" (getD record "lat" (.jint 0)) = .jint 0 := by
      simp [getD, h1, h2]
    cases h3 : pyFloat (getD record "longitude" (getD record "lng" (.jint 0))) <;>
      simp [extractNormalized, hv, h3, show pyFloat (.jint 0) = some ⟨0, 1⟩ from rfl, pfZero]
  · intro record h1 h2
    have hv : getD record "longitude" (getD record "lng" (.jint 0)) = .jint 0 := by
      simp [getD, h1, h2]
    cases h3 : pyFloat (getD record "latitude" (getD record "lat" (.jint 0))) <;>
      simp [extractNormalized, hv, h3, show pyFloat (.jint 0) = some ⟨0, 1⟩ from rfl, pfZero]
  · intro record hg
    have hgd : getD record "geometry" (.jobj []) = .jobj [] := by simp [getD, hg]
    unfold providerLatLng providerFloatOf
    rw [hgd]
    rfl

/-- Claim C1 witness: an unparseable latitude in the normalized shape
degrades both coordinates to 0.0 without raising. -/
theorem c1_witness :
    (extractNormalized [("lat", .jstr "xyz")]).lat = pfZero ∧
    (extractNormalized [("lat", .jstr "xyz")]).lng = pfZero :=
  c1_latlng_defaults.1 [("lat", .jstr "xyz")] (Or.inl rfl)

/- ### Claim C5: sequential ids -/

/-- The id field of a transformed record, as an integer (0 when absent). -/
def idOf (t : Obj) : Int :=
  match lookupJ t "id" with
  | some (.jint n) => n
  | _ => 0

theorem transform_ok_idOf {v : JVal} {i : Int} {t : Obj}
    (h : transform_record v i = .ok t) : idOf t = i := by
  cases v with
  | jobj record =>
    obtain ⟨p, _, hcb⟩ := transform_record_ok h
    rw [hcb]
    rfl
  | jstr s => exact absurd h (by simp [transform_record])
  | jnull => exact absurd h (by simp [transform_record])
  | jbool b => exact absurd h (by simp [transform_record])
  | jint n => exact absurd h (by simp [transform_record])
  | jfloat f => exact absurd h (by simp [transform_record])
  | jarr l => exact absurd h (by simp [transform_record])

theorem transformAllAux_mem_id :
    ∀ (raws : List JVal) (idx : Nat) (t : Obj), t ∈ transformAllAux idx raws →
      ∃ j, j < raws.length ∧ idOf t = ((idx + j : Nat) : Int) := by
  intro raws
  induction raws with
  | nil => intro idx t ht; simp [transformAllAux] at ht
  | cons r rest ih =>
    intro idx t ht
    unfold transformAllAux at ht
    cases htr : transform_record r (idx : Int) with
    | ok t0 =>
      rw [htr] at ht
      rcases List.mem_cons.mp ht with h1 | h2
      · subst h1
        exact ⟨0, by simp, by simp [transform_ok_idOf htr]⟩
      · obtain ⟨j, hj, hid⟩ := ih (idx + 1) t h2
        exact ⟨j + 1, by simp; omega, by rw [hid]; congr 1; omega⟩
    | error e =>
      rw [htr] at ht
      obtain ⟨j, hj, hid⟩ := ih (idx + 1) t ht
      exact ⟨j + 1, by simp; omega, by rw [hid]; congr 1; omega⟩

theorem transformAllAux_pairwise (raws : List JVal) :
    ∀ idx : Nat, ((transformAllAux idx raws).map idOf).Pairwise (· < ·) := by
  induction raws with
  | nil => intro idx; simp [transformAllAux]
  | cons r rest ih =>
    intro idx
    unfold transformAllAux
    cases htr : transform_record r (idx : Int) with
    | ok t0 =>
      simp only [List.map_cons]
      refine List.Pairwise.cons ?_ (ih (idx + 1))
      intro y hy
      obtain ⟨t, ht, hty⟩ := List.mem_map.mp hy
      obtain ⟨j, hj, hid⟩ := transformAllAux_mem_id rest (idx + 1) t ht
      rw [transform_ok_idOf htr, ← hty, hid]
      have : idx < idx + 1 + j := by omega
      exact_mod_cast this
    | error e => exact ih (idx + 1)

theorem transformAllAux_length_le (raws : List JVal) :
    ∀ idx : Nat, (transformAllAux idx raws).length ≤ raws.length := by
  induction raws with
  | nil => intro idx; simp [transformAllAux]
  | cons r rest ih =>
    intro idx
    unfold transformAllAux
    cases transform_record r (idx : Int) with
    | ok t0 => simpa using ih (idx + 1)
    | error e =>
      calc (transformAllAux (idx + 1) rest).length ≤ rest.length := ih (idx + 1)
        _ ≤ (r :: rest).length := by simp

theorem transformAllAux_all_ok (raws : List JVal) :
    ∀ idx : Nat, (transformAllAux idx raws).length = raws.length →
      (transformAllAux idx raws).map idOf
        = (List.range raws.length).map (fun j => ((idx + j : Nat) : Int)) := by
  induction raws with
  | nil => intro idx _; simp [transformAllAux]
  | cons r rest ih =>
    intro idx hlen
    unfold transformAllAux at hlen ⊢
    cases htr : transform_record r (idx : Int) with
    | ok t0 =>
      rw [htr] at hlen
      simp only [List.length_cons, List.length_cons] at hlen
      have hlen2 : (transformAllAux (idx + 1) rest).length = rest.length := by omega
      simp only [List.map_cons]
      rw [ih (idx + 1) hlen2, transform_ok_idOf htr]
      simp only [List.length_cons, List.range_succ_eq_map, List.map_cons, List.map_map]
      congr 1
      apply List.map_congr_left
      intro j hj
      simp only [Function.comp_apply]
      omega
    | error e =>
      rw [htr] at hlen
      have := transformAllAux_length_le rest (idx + 1)
      simp at hlen
      omega

/-- Claim C5 counterexample: ids are assigned by input position before
transformation, so when the middle of three records fails to transform
(non-numeric provider latitude) the accepted records carry ids 1 and 3 -
a gap, not ids in order of final acceptance. -/
theorem c5_counterexample :
    (transformAll [.jobj [("name", .jstr "A")],
        .jobj [("name", .jstr "B"),
          ("geometry", .jobj [("location", .jobj [("lat", .jstr "abc")])])],
        .jobj [("name", .jstr "C")]]).map idOf = [1, 3] := by rfl

/-- Claim C5 (amended): ids are unique, 1-based and strictly increasing,
each equal to its record's 1-based position in the deduplicated input (so
bounded by the input length); they are exactly 1..n precisely when every
record transforms successfully - a failed transform skips its id, leaving
a gap. -/
theorem c5_sequential_ids (raws : List JVal) :
    ((transformAll raws).map idOf).Pairwise (· < ·) ∧
    (∀ t ∈ transformAll raws, 1 ≤ idOf t ∧ idOf t ≤ raws.length) ∧
    ((transformAll raws).length = raws.length →
      (transformAll raws).map idOf
        = (List.range raws.length).map (fun j => ((1 + j : Nat) : Int))) := by
  refine ⟨transformAllAux_pairwise raws 1, ?_, transformAllAux_all_ok raws 1⟩
  intro t ht
  obtain ⟨j, hj, hid⟩ := transformAllAux_mem_id raws 1 t ht
  constructor
  · rw [hid]; omega
  · rw [hid]
    have : 1 + j ≤ raws.length := by omega
    exact_mod_cast this

/-- Claim C5 witness: a single successfully transformed record carries
exactly id 1. -/
theorem c5_witness :
    (transformAll [.jobj [("name", .jstr "V"), ("description", .jstr "d"),
        ("image", .jstr "i")]]).map idOf
      = (List.range 1).map (fun j => ((1 + j : Nat) : Int)) :=
  (c5_sequential_ids [.jobj [("name", .jstr "V"), ("description", .jstr "d"),
      ("image", .jstr "i")]]).2.2 rfl

/- ### Claim C7: strict schema validator -/

/-- The Python runtime type name of a value (`type(v).__name__`). -/
def typeTag : JVal → String
  | .jnull => "NoneType"
  | .jbool _ => "bool"
  | .jint _ => "int"
  | .jfloat _ => "float"
  | .jstr _ => "str"
  | .jarr _ => "list"
  | .jobj _ => "dict"

theorem pyIsinstance_iff (v ref : JVal) :
    pyIsinstanceTypeOf v ref = true ↔
      (typeTag v = typeTag ref ∨ (typeTag v = "bool" ∧ typeTag ref = "int")) := by
  cases v <;> cases ref <;> simp [pyIsinstanceTypeOf, typeTag]

theorem lookupJ_of_mem_nodup {r : Obj} {k : String} {v : JVal}
    (hm : (k, v) ∈ r) (hnd : (r.map Prod.fst).Nodup) : lookupJ r k = some v := by
  induction r with
  | nil => simp at hm
  | cons p rest ih =>
    obtain ⟨k0, v0⟩ := p
    simp only [List.map_cons, List.nodup_cons] at hnd
    rcases List.mem_cons.mp hm with h1 | h2
    · rw [← h1]
      simp [lookupJ]
    · have hne : k0 ≠ k := by
        intro he
        subst he
        exact hnd.1 (List.mem_map.mpr ⟨(k0, v), h2, rfl⟩)
      simp [lookupJ, hne]
      exact ih h2 hnd.2

theorem containsKey_iff_exists {r : Obj} {k : String} :
    containsKey r k = true ↔ ∃ v, lookupJ r k = some v := by
  unfold containsKey
  exact Option.isSome_iff_exists

theorem keySetEq_iff {r s : Obj} :
    keySetEq r s = true ↔ ∀ k, containsKey r k = containsKey s k := by
  unfold keySetEq
  rw [Bool.and_eq_true, List.all_eq_true, List.all_eq_true]
  constructor
  · rintro ⟨h1, h2⟩ k
    cases hc : containsKey r k with
    | true =>
      obtain ⟨v, hv⟩ := containsKey_iff_exists.mp hc
      exact (h1 (k, v) (mem_of_lookupJ_some hv)).symm
    | false =>
      cases hcs : containsKey s k with
      | true =>
        obtain ⟨v, hv⟩ := containsKey_iff_exists.mp hcs
        have := h2 (k, v) (mem_of_lookupJ_some hv)
        rw [hc] at this
        exact this
      | false => rfl
  · intro h
    constructor
    · intro p hp
      rw [← h p.1]
      exact containsKey_of_mem hp
    · intro p hp
      rw [h p.1]
      exact containsKey_of_mem hp

/-- Spec-side reading of the strict validator, written from the claim's
words: every record's key set equals the reference's, and each shared
key's value has exactly the reference's runtime type - except for the one
isinstance subtlety, a bool value against an int reference.  (The claim as
frozen has no bool exception; the counterexample shows the code admits
it.) -/
def validSpec (records : List Obj) (schema_reference : Obj) : Prop :=
  ∀ r ∈ records,
    (∀ k, containsKey r k = containsKey schema_reference k) ∧
    (∀ k vr vs, lookupJ r k = some vr → lookupJ schema_reference k = some vs →
      typeTag vr = typeTag vs ∨ (typeTag vr = "bool" ∧ typeTag vs = "int"))

/-- Claim C7 counterexample: a record whose value has runtime type bool
where the reference's example value is an int.  The claim requires the
strict validator to return false (types are not exactly equal); the code's
`isinstance(record[key], type(ref[key]))` accepts it because Python's bool
is a subclass of int, so `validate_schema` returns true.  (The validator
is a pure read-only function in this model.) -/
theorem c7_counterexample :
    validate_schema [[("a", .jbool true)]] [("a", .jint 0)] = true ∧
    typeTag (.jbool true) ≠ typeTag (.jint 0) :=
  ⟨rfl, by decide⟩

/-- Claim C7 (amended): the strict validator returns true iff every
record's key set equals the reference's key set and every shared key's
value has the reference value's runtime type, with isinstance's one
exception: a bool value passes an int reference.  It reads the records
and returns a Bool, modifying nothing. -/
theorem c7_validator_iff (records : List Obj) (schema_reference : Obj)
    (hnd : (schema_reference.map Prod.fst).Nodup) :
    validate_schema records schema_reference = true ↔
      validSpec records schema_reference := by
  unfold validate_schema validSpec
  rw [List.all_eq_true]
  constructor
  · intro h r hr
    have hp := h r hr
    unfold recordPasses at hp
    rw [Bool.and_eq_true, List.all_eq_true] at hp
    obtain ⟨hks, hty⟩ := hp
    refine ⟨keySetEq_iff.mp hks, ?_⟩
    intro k vr vs hvr hvs
    have := hty (k, vs) (mem_of_lookupJ_some hvs)
    rw [hvr] at this
    exact (pyIsinstance_iff vr vs).mp this
  · intro h r hr
    obtain ⟨hks, hty⟩ := h r hr
    unfold recordPasses
    rw [Bool.and_eq_true, List.all_eq_true]
    refine ⟨keySetEq_iff.mpr hks, ?_⟩
    intro p hp
    have hs : lookupJ schema_reference p.1 = some p.2 := lookupJ_of_mem_nodup hp hnd
    have hcr : containsKey r p.1 = true := by
      rw [hks p.1]
      exact containsKey_of_mem hp
    obtain ⟨vr, hvr⟩ := containsKey_iff_exists.mp hcr
    rw [hvr]
    exact (pyIsinstance_iff vr p.2).mpr (hty p.1 vr p.2 hvr hs)

/-- Claim C7 witness: a record matching the reference's keys and exact
types validates. -/
theorem c7_witness :
    validSpec [[("a", .jint 3)]] [("a", .jint 0)] :=
  (c7_validator_iff [[("a", .jint 3)]] [("a", .jint 0)] (by simp)).mp rfl

/- ### Claim C8: lenient schema reconciler -/

theorem lookupJ_fixOpeningHours_none {record : Obj} {k : String}
    (h : lookupJ record k = none) : lookupJ (fixOpeningHours record) k = none := by
  unfold fixOpeningHours
  cases hoh : lookupJ record "opening_hours" with
  | none => exact h
  | some v =>
    cases v with
    | jobj l =>
      cases l with
      | nil =>
        have hk : k ≠ "opening_hours" := by
          intro he
          rw [he, hoh] at h
          cases h
        rw [lookupJ_dictSet_ne _ _ _ _ hk]
        exact h
      | cons p rest => exact h
    | jnull => exact h
    | jbool b => exact h
    | jint n => exact h
    | jfloat f => exact h
    | jstr s => exact h
    | jarr l => exact h

theorem lookupJ_fixOpeningHours_some {record : Obj} {k : String} {v : JVal}
    (h : lookupJ record k = some v) (hex : ¬(k = "opening_hours" ∧ v = .jobj [])) :
    lookupJ (fixOpeningHours record) k = some v := by
  unfold fixOpeningHours
  cases hoh : lookupJ record "opening_hours" with
  | none => exact h
  | some w =>
    cases w with
    | jobj l =>
      cases l with
      | nil =>
        have hk : k ≠ "opening_hours" := by
          intro he
          subst he
          rw [hoh] at h
          exact hex ⟨rfl, (Option.some.inj h).symm⟩
        rw [lookupJ_dictSet_ne _ _ _ _ hk]
        exact h
      | cons p rest => exact h
    | jnull => exact h
    | jbool b => exact h
    | jint n => exact h
    | jfloat f => exact h
    | jstr s => exact h
    | jarr l => exact h

theorem lookupJ_reconcileStep_ne {r2 : Obj} {p : String × JVal} {k : String}
    (hp : p.1 ≠ k) : lookupJ (reconcileStep r2 p) k = lookupJ r2 k := by
  unfold reconcileStep
  cases hl : lookupJ r2 p.1 with
  | none =>
    show lookupJ (dictSet r2 p.1 (zeroOf p.2)) k = lookupJ r2 k
    exact lookupJ_dictSet_ne _ _ _ _ fun he => hp he.symm
  | some v =>
    show lookupJ (if pyIsinstanceTypeOf v p.2 = true then r2
        else dictSet r2 p.1 (coerceField p.2 v)) k = lookupJ r2 k
    by_cases hi : pyIsinstanceTypeOf v p.2 = true
    · rw [if_pos hi]
    · rw [if_neg hi]
      exact lookupJ_dictSet_ne _ _ _ _ fun he => hp he.symm

theorem lookupJ_reconcileStep_self_none {r2 : Obj} {k : String} {refv : JVal}
    (h : lookupJ r2 k = none) :
    lookupJ (reconcileStep r2 (k, refv)) k = some (zeroOf refv) := by
  show lookupJ (match lookupJ r2 k with
    | none => dictSet r2 k (zeroOf refv)
    | some v => if pyIsinstanceTypeOf v refv = true then r2
                else dictSet r2 k (coerceField refv v)) k = some (zeroOf refv)
  rw [h]
  exact lookupJ_dictSet_self _ _ _

theorem lookupJ_reconcileStep_self_some {r2 : Obj} {k : String} {refv v : JVal}
    (h : lookupJ r2 k = some v) (hmis : pyIsinstanceTypeOf v refv = false) :
    lookupJ (reconcileStep r2 (k, refv)) k = some (coerceField refv v) := by
  show lookupJ (match lookupJ r2 k with
    | none => dictSet r2 k (zeroOf refv)
    | some v => if pyIsinstanceTypeOf v refv = true then r2
                else dictSet r2 k (coerceField refv v)) k = some (coerceField refv v)
  rw [h]
  show lookupJ (if pyIsinstanceTypeOf v refv = true then r2
      else dictSet r2 k (coerceField refv v)) k = some (coerceField refv v)
  rw [if_neg (by simp [hmis])]
  exact lookupJ_dictSet_self _ _ _

theorem reconcileKeys_lookup_of_not_key {schema : Obj} {k : String}
    (hk : ∀ p ∈ schema, p.1 ≠ k) :
    ∀ r : Obj, lookupJ (reconcileKeys schema r) k = lookupJ r k := by
  induction schema with
  | nil => intro r; rfl
  | cons p rest ih =>
    intro r
    unfold reconcileKeys
    rw [List.foldl_cons]
    have hrest : ∀ q ∈ rest, q.1 ≠ k := fun q hq => hk q (by simp [hq])
    calc lookupJ (List.foldl reconcileStep (reconcileStep r p) rest) k
        = lookupJ (reconcileStep r p) k := ih hrest (reconcileStep r p)
      _ = lookupJ r k := lookupJ_reconcileStep_ne (hk p (by simp))

/-- Claim C8: the reconciler sets every schema key missing from a record
to the zero value of the reference value's runtime type, coerces a present
but type-mismatched value via the reference type's conversion (zero value
when the conversion raises, as packaged in `coerceField`), and on the
claim's concrete example - reference with an int and a string key, record
with a numeric string - produces the coerced int and the defaulted empty
string. -/
theorem c8_reconciler :
    (∀ (schema record : Obj) (k : String) (refv : JVal),
      (k, refv) ∈ schema → (schema.map Prod.fst).Nodup →
      lookupJ record k = none →
      lookupJ (reconcileRecord schema record) k = some (zeroOf refv)) ∧
    (∀ (schema record : Obj) (k : String) (refv v : JVal),
      (k, refv) ∈ schema → (schema.map Prod.fst).Nodup →
      lookupJ record k = some v →
      pyIsinstanceTypeOf v refv = false →
      ¬(k = "opening_hours" ∧ v = .jobj []) →
      lookupJ (reconcileRecord schema record) k = some (coerceField refv v)) ∧
    reconcileRecord [("a", .jint 0), ("b", .jstr "x")] [("a", .jstr "5")]
      = [("a", .jint 5), ("b", .jstr "")] := by
  have hsplit : ∀ (schema : Obj) (k : String) (refv : JVal),
      (k, refv) ∈ schema → (schema.map Prod.fst).Nodup →
      ∃ pre post, schema = pre ++ (k, refv) :: post ∧
        (∀ p ∈ pre, p.1 ≠ k) ∧ (∀ p ∈ post, p.1 ≠ k) := by
    intro schema k refv hm hnd
    obtain ⟨pre, post, hs⟩ := List.append_of_mem hm
    subst hs
    rw [List.map_append, List.map_cons] at hnd
    have h1 := List.nodup_middle.mp hnd
    have h2 : k ∉ List.map Prod.fst pre ++ List.map Prod.fst post :=
      (List.nodup_cons.mp h1).1
    refine ⟨pre, post, rfl, ?_, ?_⟩
    · intro p hp he
      exact h2 (List.mem_append_left _ (by rw [← he]; exact List.mem_map_of_mem _ hp))
    · intro p hp he
      exact h2 (List.mem_append_right _ (by rw [← he]; exact List.mem_map_of_mem _ hp))
  refine ⟨?_, ?_, by rfl⟩
  · intro schema record k refv hm hnd hnone
    obtain ⟨pre, post, hs, hpre, hpost⟩ := hsplit schema k refv hm hnd
    subst hs
    unfold reconcileRecord reconcileKeys
    rw [List.foldl_append, List.foldl_cons]
    have hpre2 : lookupJ (List.foldl reconcileStep (fixOpeningHours record) pre) k = none := by
      rw [show List.foldl reconcileStep (fixOpeningHours record) pre
          = reconcileKeys pre (fixOpeningHours record) from rfl,
        reconcileKeys_lookup_of_not_key hpre]
      exact lookupJ_fixOpeningHours_none hnone
    rw [show ∀ r0, List.foldl reconcileStep r0 post = reconcileKeys post r0 from fun r0 => rfl,
      reconcileKeys_lookup_of_not_key hpost]
    exact lookupJ_reconcileStep_self_none hpre2
  · intro schema record k refv v hm hnd hsome hmis hex
    obtain ⟨pre, post, hs, hpre, hpost⟩ := hsplit schema k refv hm hnd
    subst hs
    unfold reconcileRecord reconcileKeys
    rw [List.foldl_append, List.foldl_cons]
    have hpre2 : lookupJ (List.foldl reconcileStep (fixOpeningHours record) pre) k
        = some v := by
      rw [show List.foldl reconcileStep (fixOpeningHours record) pre
          = reconcileKeys pre (fixOpeningHours record) from rfl,
        reconcileKeys_lookup_of_not_key hpre]
      exact lookupJ_fixOpeningHours_some hsome hex
    rw [show ∀ r0, List.foldl reconcileStep r0 post = reconcileKeys post r0 from fun r0 => rfl,
      reconcileKeys_lookup_of_not_key hpost]
    exact lookupJ_reconcileStep_self_some hpre2 hmis

/-- Claim C8 witness: a schema key absent from the record is set to the
zero value of its reference type. -/
theorem c8_witness :
    lookupJ (reconcileRecord [("b", .jstr "x")] []) "b" = some (zeroOf (.jstr "x")) :=
  c8_reconciler.1 [("b", .jstr "x")] [] "b" (.jstr "x") (by simp) (by simp) rfl

/- ### Claim C6: ingestion and dedup -/

theorem jeq_jstr_iff (v : JVal) (n : String) : jeq v (.jstr n) = true ↔ v = .jstr n := by
  cases v with
  | jstr a =>
    show (a == n) = true ↔ _
    simp
  | jnull => simp [show jeq .jnull (.jstr n) = false from rfl]
  | jbool b => simp [show jeq (.jbool b) (.jstr n) = false from rfl]
  | jint m => simp [show jeq (.jint m) (.jstr n) = false from rfl]
  | jfloat f => simp [show jeq (.jfloat f) (.jstr n) = false from rfl]
  | jarr l => simp [show jeq (.jarr l) (.jstr n) = false from rfl]
  | jobj l => simp [show jeq (.jobj l) (.jstr n) = false from rfl]

/-- The element sequence one source file contributes to the ingestion
loop: a list's elements, a farmshops wrapper's inner list, or the single
record itself. -/
def fileItems : JVal → List JVal
  | .jarr l => l
  | .jobj r =>
    match lookupJ r "farmshops" with
    | some (.jarr l) => l
    | _ => [.jobj r]
  | _ => []

/-- The dict records among a list of JSON values, in order. -/
def objsOf (l : List JVal) : List Obj :=
  l.filterMap fun v => match v with | .jobj r => some r | _ => none

theorem ingestFile_eq_ingestRecords (seen : List JVal) (acc : List Obj) (file : JVal) :
    ingestFile seen acc file = ingestRecords seen acc (fileItems file) := by
  cases file with
  | jarr l => rfl
  | jobj r =>
    simp only [ingestFile, fileItems]
    cases lookupJ r "farmshops" with
    | none => rfl
    | some v => cases v <;> rfl
  | jnull => rfl
  | jbool b => rfl
  | jint m => rfl
  | jfloat f => rfl
  | jstr a => rfl

theorem candidateRecords_eq_objsOf (file : JVal) :
    candidateRecords file = objsOf (fileItems file) := by
  cases file with
  | jarr l => rfl
  | jobj r =>
    simp only [candidateRecords, fileItems]
    cases lookupJ r "farmshops" with
    | none => rfl
    | some v => cases v <;> rfl
  | jnull => rfl
  | jbool b => rfl
  | jint m => rfl
  | jfloat f => rfl
  | jstr a => rfl

/-- The records in `l` whose dedup name is the string `n`. -/
def withName (n : String) (l : List Obj) : List Obj :=
  l.filter fun r => jeq (nameOf r) (.jstr n)

theorem withName_append (n : String) (a b : List Obj) :
    withName n (a ++ b) = withName n a ++ withName n b := by
  simp [withName]

theorem withName_singleton_pos {n : String} {r : Obj}
    (h : jeq (nameOf r) (.jstr n) = true) : withName n [r] = [r] := by
  simp [withName, h]

theorem withName_singleton_neg {n : String} {r : Obj}
    (h : jeq (nameOf r) (.jstr n) = false) : withName n [r] = [] := by
  simp [withName, h]

theorem take_one_append_left {α : Type} (l t : List α) (h : l ≠ []) :
    (l ++ t).take 1 = l.take 1 := by
  cases l with
  | nil => exact absurd rfl h
  | cons x xs => simp

theorem isEmpty_append_singleton {α : Type} (l : List α) (x : α) :
    (l ++ [x]).isEmpty = false := by
  cases l <;> rfl

theorem pyTruthy_jstr_of_ne {n : String} (hn : n ≠ "") : pyTruthy (.jstr n) = true := by
  show (!n.isEmpty) = true
  cases he : n.isEmpty
  · rfl
  · exact absurd ((String.isEmpty_iff n).mp he) hn

theorem ingestRecords_name_inv (n : String) (hn : n ≠ "") :
    ∀ (records : List JVal) (seen : List JVal) (acc : List Obj) (processed : List Obj),
      withName n acc = (withName n processed).take 1 →
      (seen.any fun s => jeq s (.jstr n)) = !(withName n processed).isEmpty →
      withName n (ingestRecords seen acc records).2
          = (withName n (processed ++ objsOf records)).take 1 ∧
        ((ingestRecords seen acc records).1.any fun s => jeq s (.jstr n))
          = !(withName n (processed ++ objsOf records)).isEmpty := by
  intro records
  induction records with
  | nil =>
    intro seen acc processed hA hS
    exact ⟨by simpa [ingestRecords, objsOf] using hA, by simpa [ingestRecords, objsOf] using hS⟩
  | cons v rest ih =>
    intro seen acc processed hA hS
    cases v with
    | jobj r =>
      have hassoc : processed ++ objsOf (.jobj r :: rest) = (processed ++ [r]) ++ objsOf rest := by
        rw [show objsOf (.jobj r :: rest) = r :: objsOf rest from rfl, List.append_assoc]
        rfl
      by_cases hname : jeq (nameOf r) (.jstr n) = true
      · have hnr : nameOf r = .jstr n := (jeq_jstr_iff _ _).mp hname
        have htr : pyTruthy (nameOf r) = true := by rw [hnr]; exact pyTruthy_jstr_of_ne hn
        have hseq : (seen.any fun s => jeq s (nameOf r)) = !(withName n processed).isEmpty := by
          rw [hnr]; exact hS
        cases hmem : (withName n processed).isEmpty with
        | true =>
          have hwp : withName n processed = [] := List.isEmpty_iff.mp hmem
          have hcond : (pyTruthy (nameOf r) && !(seen.any fun s => jeq s (nameOf r))) = true := by
            rw [htr, hseq, hmem]
            rfl
          have hstep : ingestRecords seen acc (.jobj r :: rest)
              = ingestRecords (seen ++ [nameOf r]) (acc ++ [r]) rest := by
            simp only [ingestRecords]
            rw [if_pos hcond]
          rw [hstep, hassoc]
          apply ih
          · rw [withName_append, withName_append, withName_singleton_pos hname, hA, hwp]
            rfl
          · rw [List.any_append, withName_append, withName_singleton_pos hname, hwp, hS, hmem]
            simp [hnr, jeq_jstr_iff]
        | false =>
          have hwpne : withName n processed ≠ [] := by
            intro hh
            rw [hh] at hmem
            cases hmem
          have hcond : (pyTruthy (nameOf r) && !(seen.any fun s => jeq s (nameOf r))) = false := by
            rw [htr, hseq, hmem]
            rfl
          have hstep : ingestRecords seen acc (.jobj r :: rest) = ingestRecords seen acc rest := by
            simp only [ingestRecords]
            rw [if_neg (by simp [hcond])]
          rw [hstep, hassoc]
          apply ih
          · rw [hA, withName_append, withName_singleton_pos hname,
              take_one_append_left _ _ hwpne]
          · rw [hS, hmem, withName_append, withName_singleton_pos hname,
              isEmpty_append_singleton]
      · have hnf : jeq (nameOf r) (.jstr n) = false := Bool.eq_false_iff.mpr hname
        by_cases hc : (pyTruthy (nameOf r) && !(seen.any fun s => jeq s (nameOf r))) = true
        · have hstep : ingestRecords seen acc (.jobj r :: rest)
              = ingestRecords (seen ++ [nameOf r]) (acc ++ [r]) rest := by
            simp only [ingestRecords]
            rw [if_pos hc]
          rw [hstep, hassoc]
          apply ih
          · rw [withName_append, withName_singleton_neg hnf, List.append_nil,
              withName_append, withName_singleton_neg hnf, List.append_nil]
            exact hA
          · rw [List.any_append, withName_append, withName_singleton_neg hnf,
              List.append_nil]
            simp [hnf, hS]
        · have hstep : ingestRecords seen acc (.jobj r :: rest) = ingestRecords seen acc rest := by
            simp only [ingestRecords]
            rw [if_neg hc]
          rw [hstep, hassoc]
          apply ih
          · rw [withName_append, withName_singleton_neg hnf, List.append_nil]
            exact hA
          · rw [withName_append, withName_singleton_neg hnf, List.append_nil]
            exact hS
    | jnull => exact ih seen acc processed hA hS
    | jbool b => exact ih seen acc processed hA hS
    | jint m => exact ih seen acc processed hA hS
    | jfloat f => exact ih seen acc processed hA hS
    | jstr a => exact ih seen acc processed hA hS
    | jarr l => exact ih seen acc processed hA hS

theorem ingest_files_name_inv (n : String) (hn : n ≠ "") :
    ∀ (files : List JVal) (seen : List JVal) (acc : List Obj) (processed : List Obj),
      withName n acc = (withName n processed).take 1 →
      (seen.any fun s => jeq s (.jstr n)) = !(withName n processed).isEmpty →
      withName n (files.foldl ingestStep (seen, acc)).2
          = (withName n (processed ++ (files.map candidateRecords).flatten)).take 1 := by
  intro files
  induction files with
  | nil =>
    intro seen acc processed hA hS
    simpa using hA
  | cons f rest ih =>
    intro seen acc processed hA hS
    rw [List.foldl_cons,
      show ingestStep (seen, acc) f = ingestRecords seen acc (fileItems f) from
        ingestFile_eq_ingestRecords seen acc f]
    obtain ⟨h1, h2⟩ := ingestRecords_name_inv n hn (fileItems f) seen acc processed hA hS
    rcases hsa : ingestRecords seen acc (fileItems f) with ⟨s2, a2⟩
    rw [hsa] at h1 h2
    have hcand : objsOf (fileItems f) = candidateRecords f :=
      (candidateRecords_eq_objsOf f).symm
    rw [hcand] at h1 h2
    have := ih s2 a2 (processed ++ candidateRecords f) h1 h2
    rw [this, List.map_cons, List.flatten_cons, ← List.append_assoc]

theorem ingestRecords_truthy :
    ∀ (records : List JVal) (seen : List JVal) (acc : List Obj),
      (∀ r ∈ acc, pyTruthy (nameOf r) = true) →
      ∀ r ∈ (ingestRecords seen acc records).2, pyTruthy (nameOf r) = true := by
  intro records
  induction records with
  | nil => intro seen acc hacc r hr; exact hacc r hr
  | cons v rest ih =>
    intro seen acc hacc r hr
    cases v with
    | jobj r0 =>
      by_cases hc : (pyTruthy (nameOf r0) && !(seen.any fun s => jeq s (nameOf r0))) = true
      · have hstep : ingestRecords seen acc (.jobj r0 :: rest)
            = ingestRecords (seen ++ [nameOf r0]) (acc ++ [r0]) rest := by
          simp only [ingestRecords]
          rw [if_pos hc]
        rw [hstep] at hr
        refine ih _ _ ?_ r hr
        intro q hq
        rcases List.mem_append.mp hq with h1 | h1
        · exact hacc q h1
        · have hq0 : q = r0 := by simpa using h1
          subst hq0
          have hc2 : pyTruthy (nameOf q) = true ∧
              (!(seen.any fun s => jeq s (nameOf q))) = true := by simpa using hc
          exact hc2.1
      · have hstep : ingestRecords seen acc (.jobj r0 :: rest)
            = ingestRecords seen acc rest := by
          simp only [ingestRecords]
          rw [if_neg hc]
        rw [hstep] at hr
        exact ih seen acc hacc r hr
    | jnull => exact ih seen acc hacc r hr
    | jbool b => exact ih seen acc hacc r hr
    | jint m => exact ih seen acc hacc r hr
    | jfloat f => exact ih seen acc hacc r hr
    | jstr a => exact ih seen acc hacc r hr
    | jarr l => exact ih seen acc hacc r hr

theorem ingest_files_truthy :
    ∀ (files : List JVal) (seen : List JVal) (acc : List Obj),
      (∀ r ∈ acc, pyTruthy (nameOf r) = true) →
      ∀ r ∈ (files.foldl ingestStep (seen, acc)).2, pyTruthy (nameOf r) = true := by
  intro files
  induction files with
  | nil => intro seen acc hacc r hr; exact hacc r hr
  | cons f rest ih =>
    intro seen acc hacc r hr
    rw [List.foldl_cons,
      show ingestStep (seen, acc) f = ingestRecords seen acc (fileItems f) from
        ingestFile_eq_ingestRecords seen acc f] at hr
    rcases hsa : ingestRecords seen acc (fileItems f) with ⟨s2, a2⟩
    rw [hsa] at hr
    refine ih s2 a2 ?_ r hr
    intro q hq
    apply ingestRecords_truthy (fileItems f) seen acc hacc q
    rw [hsa]
    exact hq

/-- Claim C6: ingestion drops every record whose name is missing or empty
(every kept record has a truthy name), and for each non-empty name string
the output contains exactly the first candidate record carrying that name,
in source-then-insertion order, all later ones being dropped (so at most
one record per name). -/
theorem c6_ingest_dedup (files : List JVal) :
    (∀ r ∈ ingest files, pyTruthy (nameOf r) = true) ∧
    (∀ n : String, n ≠ "" →
      withName n (ingest files) = (withName n (rawSeq files)).take 1) := by
  constructor
  · intro r hr
    exact ingest_files_truthy files [] [] (by intro q hq; cases hq) r hr
  · intro n hn
    have := ingest_files_name_inv n hn files [] [] [] rfl rfl
    simpa [ingest, rawSeq] using this

/-- Claim C6 witness: with two records named "X" and one with an empty
name, ingestion keeps exactly the first "X" record. -/
theorem c6_witness :
    withName "X" (ingest [.jarr [.jobj [("name", .jstr "X"), ("k", .jint 1)],
        .jobj [("name", .jstr "")],
        .jobj [("name", .jstr "X"), ("k", .jint 2)]]])
      = (withName "X" (rawSeq [.jarr [.jobj [("name", .jstr "X"), ("k", .jint 1)],
          .jobj [("name", .jstr "")],
          .jobj [("name", .jstr "X"), ("k", .jint 2)]]])).take 1 :=
  (c6_ingest_dedup [.jarr [.jobj [("name", .jstr "X"), ("k", .jint 1)],
      .jobj [("name", .jstr "")],
      .jobj [("name", .jstr "X"), ("k", .jint 2)]]]).2 "X" (by decide)

/- ### Claim C3: unknown day keys in the formatter -/

theorem lookup_mem {α β : Type} [BEq α] [LawfulBEq α] {l : List (α × β)} {a : α} {b : β}
    (h : List.lookup a l = some b) : (a, b) ∈ l := by
  induction l with
  | nil => simp [List.lookup] at h
  | cons p rest ih =>
    obtain ⟨k, v⟩ := p
    by_cases hk : (a == k) = true
    · have hak : a = k := eq_of_beq hk
      subst hak
      simp [List.lookup, hk] at h
      simp [h]
    · rw [Bool.not_eq_true] at hk
      simp [List.lookup, hk] at h
      simp [ih h]

theorem day_order_lookup_bound {d : String} {v : Nat}
    (h : List.lookup d day_order = some v) : v ≤ 6 := by
  have hm := lookup_mem h
  simp [day_order, Prod.ext_iff] at hm
  rcases hm with ⟨h1, h2⟩ | ⟨h1, h2⟩ | ⟨h1, h2⟩ | ⟨h1, h2⟩ | ⟨h1, h2⟩ | ⟨h1, h2⟩ | ⟨h1, h2⟩ <;>
    omega

theorem dayKey_unknown {d : String} (h : List.lookup d day_order = none) : dayKey d = 7 := by
  unfold dayKey
  rw [h]
  rfl

theorem dayKey_le_seven (d : String) : dayKey d ≤ 7 := by
  unfold dayKey
  cases hl : List.lookup d day_order with
  | none => simp
  | some v =>
    have := day_order_lookup_bound hl
    simp
    omega

theorem dayKey_eq_six {d : String} (h : dayKey d = 6) : d = "Sun" := by
  unfold dayKey at h
  cases hl : List.lookup d day_order with
  | none =>
    rw [hl] at h
    simp at h
  | some v =>
    rw [hl] at h
    simp at h
    subst h
    have hm := lookup_mem hl
    simpa [day_order, Prod.ext_iff] using hm

theorem sortDays_sorted (days : List String) :
    List.Sorted (fun a b => dayKey a ≤ dayKey b) (sortDays days) := by
  unfold sortDays
  haveI : IsTotal String (fun a b => dayKey a ≤ dayKey b) := ⟨fun a b => Nat.le_total _ _⟩
  haveI : IsTrans String (fun a b => dayKey a ≤ dayKey b) :=
    ⟨fun a b c hab hbc => le_trans hab hbc⟩
  exact List.sorted_insertionSort _ _

theorem rangesAux_chain :
    ∀ (rest : List String) (cur : List String) (prev : String),
      List.Chain' (fun a b => dayKey b = dayKey a + 1) cur →
      cur.getLast? = some prev →
      ∀ r ∈ rangesAux cur prev rest, List.Chain' (fun a b => dayKey b = dayKey a + 1) r := by
  intro rest
  induction rest with
  | nil =>
    intro cur prev hc hl r hr
    have : r = cur := by simpa [rangesAux] using hr
    subst this
    exact hc
  | cons d ds ih =>
    intro cur prev hc hl r hr
    unfold rangesAux at hr
    by_cases hk : (dayKey d == dayKey prev + 1) = true
    · rw [if_pos hk] at hr
      refine ih (cur ++ [d]) d ?_ ?_ r hr
      · rw [List.chain'_append]
        refine ⟨hc, List.chain'_singleton _, ?_⟩
        intro x hx y hy
        rw [hl] at hx
        have hx2 : prev = x := by simpa using hx
        have hy2 : d = y := by simpa using hy
        subst hx2
        subst hy2
        exact eq_of_beq hk
      · exact List.getLast?_concat _
    · rw [if_neg hk] at hr
      rcases List.mem_cons.mp hr with h1 | h2
      · subst h1
        exact hc
      · exact ih [d] d (List.chain'_singleton _) rfl r h2

theorem dayRanges_chain (days : List String) :
    ∀ r ∈ dayRanges days, List.Chain' (fun a b => dayKey b = dayKey a + 1) r := by
  cases days with
  | nil => intro r hr; simp [dayRanges] at hr
  | cons d rest =>
    intro r hr
    exact rangesAux_chain rest [d] d (List.chain'_singleton _) rfl r hr

theorem rangesAux_flatten :
    ∀ (rest cur : List String) (prev : String),
      (rangesAux cur prev rest).flatten = cur ++ rest := by
  intro rest
  induction rest with
  | nil => intro cur prev; simp [rangesAux]
  | cons d ds ih =>
    intro cur prev
    unfold rangesAux
    by_cases hk : (dayKey d == dayKey prev + 1) = true
    · rw [if_pos hk, ih (cur ++ [d]) d]
      simp
    · rw [if_neg hk]
      rw [List.flatten_cons, ih [d] d]
      simp

theorem dayRanges_flatten (days : List String) : (dayRanges days).flatten = days := by
  cases days with
  | nil => rfl
  | cons d rest =>
    unfold dayRanges
    rw [rangesAux_flatten rest [d] d]
    rfl

theorem chain_adjacent {r pre post : List String} {a b : String}
    (hc : List.Chain' (fun x y => dayKey y = dayKey x + 1) r)
    (hs : r = pre ++ a :: b :: post) : dayKey b = dayKey a + 1 := by
  subst hs
  have h2 := (List.chain'_append.mp hc).2.1
  exact (List.chain'_cons.mp h2).1

/-- Claim C3 counterexample: the unknown day key "Foo" is not in the
canonical order table, yet sharing Sun's hours it is collapsed into the
range label "Sun-Foo" - the claim says an unrecognized day is never merged
into a First-Last range. -/
theorem c3_counterexample :
    format_opening_hours_to_string [("Sun", .jstr "9-5"), ("Foo", .jstr "9-5")]
      = .ok "Sun-Foo: 9-5" ∧
    List.lookup "Foo" day_order = none :=
  ⟨rfl, rfl⟩

/-- Claim C3 (amended): a day key not in the canonical order table gets
sort key 7, exceeding every real day's key (at most 6), and is sorted
after all recognized days; within the formatter's range decomposition
adjacent days always have consecutive sort keys, so an unknown day never
has a successor inside a range, and when it appears inside a range its
predecessor can only be "Sun" (key 6) - the single case, shown by the
counterexample, in which it is merged rather than kept a singleton
label. -/
theorem c3_unknown_day_sorting :
    (∀ d : String, List.lookup d day_order = none → dayKey d = 7) ∧
    (∀ (d : String) (v : Nat), List.lookup d day_order = some v → v ≤ 6) ∧
    (∀ days : List String, List.Sorted (fun a b => dayKey a ≤ dayKey b) (sortDays days)) ∧
    (∀ (days r : List String), r ∈ dayRanges days →
      List.Chain' (fun a b => dayKey b = dayKey a + 1) r) ∧
    (∀ (days r pre post : List String) (a b : String), r ∈ dayRanges days →
      r = pre ++ a :: b :: post → List.lookup b day_order = none → a = "Sun") ∧
    (∀ (days r pre post : List String) (a b : String), r ∈ dayRanges days →
      r = pre ++ a :: b :: post → List.lookup a day_order = none → False) := by
  refine ⟨fun d => dayKey_unknown, fun d v h => day_order_lookup_bound h,
    sortDays_sorted, dayRanges_chain, ?_, ?_⟩
  · intro days r pre post a b hr hs hb
    have hadj := chain_adjacent (dayRanges_chain days r hr) hs
    rw [dayKey_unknown hb] at hadj
    exact dayKey_eq_six (by omega)
  · intro days r pre post a b hr hs ha
    have hadj := chain_adjacent (dayRanges_chain days r hr) hs
    rw [dayKey_unknown ha] at hadj
    have := dayKey_le_seven b
    omega

/-- Claim C3 witness: in the group Sun/Foo with shared hours, the range
containing the unknown day "Foo" has "Sun" directly before it. -/
theorem c3_witness :
    (["Sun", "Foo"] ∈ dayRanges ["Sun", "Foo"]) ∧ ("Sun" : String) = "Sun" :=
  ⟨by decide, c3_unknown_day_sorting.2.2.2.2.1 ["Sun", "Foo"] ["Sun", "Foo"] [] []
    "Sun" "Foo" (by decide) rfl rfl⟩

/- ### Claim C2: parse-format round trip -/

/-- The abbreviation applied by the weekday-text parser. -/
def dayAbbr (d : String) : String :=
  (List.lookup d days_map).getD d

theorem string_mk_toList (s : String) : String.mk s.toList = s := by
  obtain ⟨data⟩ := s
  rfl

theorem splitFirstChars_boundary (a b : List Char) (h : ∀ c ∈ a, c ≠ ':') :
    splitFirstChars [':', ' '] (a ++ ':' :: ' ' :: b) = some (a, b) := by
  induction a with
  | nil =>
    show splitFirstChars [':', ' '] (':' :: ' ' :: b) = some ([], b)
    unfold splitFirstChars
    rw [if_pos (show ([':', ' '].isPrefixOf (':' :: ' ' :: b)) = true by simp [List.isPrefixOf])]
    rfl
  | cons c a ih =>
    have hc : c ≠ ':' := h c (by simp)
    show splitFirstChars [':', ' '] (c :: (a ++ ':' :: ' ' :: b)) = some (c :: a, b)
    unfold splitFirstChars
    rw [if_neg ?hpre]
    · rw [ih fun x hx => h x (by simp [hx])]
    case hpre =>
      intro hp
      simp [List.isPrefixOf] at hp
      exact hc hp.1.symm

theorem splitFirst_entry (d hs : String) (hd : ∀ c ∈ d.toList, c ≠ ':') :
    splitFirst (d ++ ": " ++ hs) ": " = some (d, hs) := by
  unfold splitFirst
  have hl : (d ++ ": " ++ hs).toList = d.toList ++ ':' :: ' ' :: hs.toList := by
    show (d ++ ": " ++ hs).data = d.data ++ ':' :: ' ' :: hs.data
    simp [String.data_append]
  rw [show (": ").toList = [':', ' '] from rfl, hl, splitFirstChars_boundary _ _ hd]
  show some (String.mk d.toList, String.mk hs.toList) = some (d, hs)
  rw [string_mk_toList, string_mk_toList]

theorem days_map_no_colon :
    ∀ d ∈ days_map.map Prod.fst, ∀ c ∈ d.toList, c ≠ ':' := by decide

theorem dayAbbr_inj :
    ∀ x ∈ days_map.map Prod.fst, ∀ y ∈ days_map.map Prod.fst,
      dayAbbr x = dayAbbr y → x = y := by decide

theorem parseEntries_wellformed :
    ∀ (entries : List (String × String)) (acc : List (String × JVal)),
      (∀ p ∈ entries, p.1 ∈ days_map.map Prod.fst) →
      ((acc.map Prod.fst) ++ entries.map fun p => dayAbbr p.1).Nodup →
      parseEntries (entries.map fun p => .jstr (p.1 ++ ": " ++ p.2)) acc
        = .ok (acc ++ entries.map fun p => (dayAbbr p.1, .jstr p.2)) := by
  intro entries
  induction entries with
  | nil =>
    intro acc _ _
    simp [parseEntries]
  | cons p rest ih =>
    intro acc hdays hnd
    obtain ⟨d, hstr⟩ := p
    have hdmem : d ∈ days_map.map Prod.fst := hdays (d, hstr) (by simp)
    have hsplit : splitFirst (d ++ ": " ++ hstr) ": " = some (d, hstr) :=
      splitFirst_entry _ _ (days_map_no_colon d hdmem)
    have hstep : parseEntries ((.jstr (d ++ ": " ++ hstr)) ::
          (rest.map fun p => .jstr (p.1 ++ ": " ++ p.2))) acc
        = parseEntries (rest.map fun p => .jstr (p.1 ++ ": " ++ p.2))
            (dictSet acc (dayAbbr d) (.jstr hstr)) := by
      show (match splitFirst (d ++ ": " ++ hstr) ": " with
        | some (day_full, hours) =>
            parseEntries (rest.map fun (p : String × String) => .jstr (p.1 ++ ": " ++ p.2))
              (dictSet acc ((List.lookup day_full days_map).getD day_full) (.jstr hours))
        | none =>
            parseEntries (rest.map fun (p : String × String) => .jstr (p.1 ++ ": " ++ p.2)) acc)
        = _
      rw [hsplit]
      rfl
    have hmem : dayAbbr d ∉ acc.map Prod.fst := by
      intro hmm
      rcases List.nodup_append.mp hnd with ⟨_, _, hdisj⟩
      exact hdisj hmm (by simp)
    have hset : dictSet acc (dayAbbr d) (.jstr hstr) = acc ++ [(dayAbbr d, .jstr hstr)] := by
      apply dictSet_of_not_mem
      apply lookupJ_eq_none_of_not_mem
      intro q hq hqe
      exact hmem (hqe ▸ List.mem_map_of_mem Prod.fst hq)
    have hd2 : ∀ q ∈ rest, q.1 ∈ days_map.map Prod.fst := fun q hq => hdays q (by simp [hq])
    have hnd2 : List.Nodup ((acc ++ [(dayAbbr d, JVal.jstr hstr)]).map Prod.fst
        ++ rest.map fun p => dayAbbr p.1) := by
      rw [List.map_append]
      simpa [List.append_assoc] using hnd
    rw [List.map_cons, hstep, hset, ih (acc ++ [(dayAbbr d, JVal.jstr hstr)]) hd2 hnd2]
    simp

theorem parseWeekdayText_wellformed (entries : List (String × String))
    (hdays : ∀ p ∈ entries, p.1 ∈ days_map.map Prod.fst)
    (hnd : (entries.map fun p => dayAbbr p.1).Nodup) :
    parseWeekdayText (.jarr (entries.map fun p => .jstr (p.1 ++ ": " ++ p.2)))
      = .ok (entries.map fun p => (dayAbbr p.1, .jstr p.2)) := by
  cases entries with
  | nil => rfl
  | cons p rest =>
    have htr : pyTruthy (.jarr (((p :: rest).map fun p => .jstr (p.1 ++ ": " ++ p.2)))) = true := by
      simp [pyTruthy]
    have hexp : parseWeekdayText (.jarr ((p :: rest).map fun p => .jstr (p.1 ++ ": " ++ p.2)))
        = parseEntries ((p :: rest).map fun p => .jstr (p.1 ++ ": " ++ p.2)) [] := by
      unfold parseWeekdayText
      rw [htr]
      rfl
    rw [hexp, parseEntries_wellformed (p :: rest) [] hdays (by simpa using hnd)]
    simp

/-- Read a day-to-hours pairing back off a grouped structure: each group
contributes one pair per listed day, carrying the group's hours value. -/
def ungroup (gs : List (JVal × List String)) : List (String × JVal) :=
  (gs.map fun g => g.2.map fun day => (day, g.1)).flatten

/-- All group values are strings. -/
def gAllStr (gs : List (JVal × List String)) : Prop :=
  ∀ g ∈ gs, ∃ s, g.1 = JVal.jstr s

theorem addDay_spec (h : JVal) (dy : String) (hh : ∃ s, h = JVal.jstr s) :
    ∀ acc : List (JVal × List String), gAllStr acc →
      (ungroup (addDay acc h dy)).Perm (ungroup acc ++ [(dy, h)]) ∧
        gAllStr (addDay acc h dy) := by
  intro acc
  induction acc with
  | nil =>
    intro _
    refine ⟨?_, ?_⟩
    · simp [addDay, ungroup]
    · intro g hg
      simp only [addDay, List.mem_singleton] at hg
      obtain ⟨s, hs⟩ := hh
      exact ⟨s, by rw [hg]; exact hs⟩
  | cons g0 rest ih =>
    intro hacc
    obtain ⟨h0, ds⟩ := g0
    have hhead : ∃ s, h0 = JVal.jstr s := by
      have := hacc (h0, ds) (by simp)
      simpa using this
    by_cases he : jeq h h0 = true
    · obtain ⟨s, hsv⟩ := hh
      obtain ⟨s0, hs0⟩ := hhead
      have h0h : h0 = h := by
        rw [hsv, hs0] at he
        have hss : s = s0 := by
          have : (s == s0) = true := he
          simpa using this
        rw [hsv, hs0, hss]
      have hstep : addDay ((h0, ds) :: rest) h dy = (h0, ds ++ [dy]) :: rest := by
        simp [addDay, he]
      rw [hstep]
      refine ⟨?_, ?_⟩
      · show List.Perm (((ds ++ [dy]).map fun day => (day, h0)) ++ ungroup rest)
          ((ds.map fun day => (day, h0)) ++ ungroup rest ++ [(dy, h)])
        rw [List.map_append, h0h, List.append_assoc, List.append_assoc]
        apply List.Perm.append_left
        show List.Perm ([(dy, h)] ++ ungroup rest) (ungroup rest ++ [(dy, h)])
        exact List.perm_append_comm
      · intro g hg
        rcases List.mem_cons.mp hg with h1 | h2
        · exact ⟨s0, by rw [h1]; exact hs0⟩
        · exact hacc g (by simp [h2])
    · have hstep : addDay ((h0, ds) :: rest) h dy = (h0, ds) :: addDay rest h dy := by
        simp [addDay, he]
      rw [hstep]
      have hrest := ih fun g hg => hacc g (by simp [hg])
      refine ⟨?_, ?_⟩
      · show List.Perm ((ds.map fun day => (day, h0)) ++ ungroup (addDay rest h dy))
          ((ds.map fun day => (day, h0)) ++ ungroup rest ++ [(dy, h)])
        rw [List.append_assoc]
        exact List.Perm.append_left _ hrest.1
      · intro g hg
        rcases List.mem_cons.mp hg with h1 | h2
        · obtain ⟨s0, hs0⟩ := hhead
          exact ⟨s0, by rw [h1]; exact hs0⟩
        · exact hrest.2 g h2

theorem hoursToDays_fold_spec :
    ∀ (l : List (String × JVal)) (acc : List (JVal × List String)),
      gAllStr acc → (∀ p ∈ l, ∃ s, p.2 = JVal.jstr s) →
      (ungroup (l.foldl (fun acc p => addDay acc p.2 p.1) acc)).Perm (ungroup acc ++ l) ∧
        gAllStr (l.foldl (fun acc p => addDay acc p.2 p.1) acc) := by
  intro l
  induction l with
  | nil =>
    intro acc hacc _
    exact ⟨by simp, hacc⟩
  | cons p rest ih =>
    intro acc hacc hl
    obtain ⟨d0, v0⟩ := p
    rw [List.foldl_cons]
    obtain ⟨hperm, hstr⟩ := addDay_spec v0 d0 (by simpa using hl (d0, v0) (by simp)) acc hacc
    obtain ⟨hperm2, hstr2⟩ := ih (addDay acc v0 d0) hstr fun q hq => hl q (by simp [hq])
    refine ⟨?_, hstr2⟩
    have h3 := List.Perm.append_right rest hperm
    rw [List.append_assoc] at h3
    exact hperm2.trans h3

theorem hoursToDays_perm (d : List (String × JVal))
    (hstr : ∀ p ∈ d, ∃ s, p.2 = JVal.jstr s) :
    (ungroup (hoursToDays d)).Perm d ∧ gAllStr (hoursToDays d) := by
  have hmain := hoursToDays_fold_spec d [] (fun g hg => absurd hg (List.not_mem_nil g)) hstr
  refine ⟨?_, hmain.2⟩
  have h0 : ungroup ([] : List (JVal × List String)) ++ d = d := rfl
  exact h0 ▸ hmain.1

/-- The day-to-hours pairs denoted by the formatter's output structure:
each group is rendered from the runs `dayRanges (sortDays g.2)` paired
with its hours value, so expanding every run day-by-day reads the
rendered day/hours association back off the string's structure. -/
def denotedPairs (d : List (String × JVal)) : List (String × JVal) :=
  ((hoursToDays d).map fun g =>
    ((dayRanges (sortDays g.2)).flatten).map fun day => (day, g.1)).flatten

theorem flatten_perm_of_forall2 {α : Type} :
    ∀ {l1 l2 : List (List α)}, List.Forall₂ (fun a b => List.Perm a b) l1 l2 →
      l1.flatten.Perm l2.flatten := by
  intro l1 l2 h
  induction h with
  | nil => exact List.Perm.refl _
  | cons hab _ ih =>
    simp only [List.flatten_cons]
    exact List.Perm.append hab ih

theorem forall2_map_map {α β : Type} (l : List α) {f g : α → List β}
    (h : ∀ a ∈ l, (f a).Perm (g a)) :
    List.Forall₂ (fun a b => List.Perm a b) (l.map f) (l.map g) := by
  induction l with
  | nil => exact List.Forall₂.nil
  | cons a rest ih =>
    exact List.Forall₂.cons (h a (by simp)) (ih fun x hx => h x (by simp [hx]))

theorem denotedPairs_perm (d : List (String × JVal))
    (hstr : ∀ p ∈ d, ∃ s, p.2 = JVal.jstr s) :
    (denotedPairs d).Perm d := by
  have h1 : denotedPairs d
      = ((hoursToDays d).map fun g => (sortDays g.2).map fun day => (day, g.1)).flatten := by
    unfold denotedPairs
    congr 1
    apply List.map_congr_left
    intro g _
    rw [dayRanges_flatten]
  rw [h1]
  have h2 : (((hoursToDays d).map fun g => (sortDays g.2).map fun day => (day, g.1)).flatten).Perm
      (ungroup (hoursToDays d)) := by
    apply flatten_perm_of_forall2
    apply forall2_map_map
    intro g _
    exact List.Perm.map _ (List.perm_insertionSort _ g.2)
  exact h2.trans (hoursToDays_perm d hstr).1

theorem formatGroup_eq (g : JVal × List String) (hs : String) (h : g.1 = JVal.jstr hs) :
    formatGroup g = .ok (String.intercalate ", " ((dayRanges (sortDays g.2)).map rangeLabel)
      ++ ": " ++ cleanHours hs) := by
  unfold formatGroup
  rw [h]
  rfl

theorem mapM_ok_of_forall {α β : Type} (l : List α) (f : α → Except String β)
    (h : ∀ a ∈ l, ∃ b, f a = .ok b) : ∃ bs, l.mapM f = .ok bs := by
  induction l with
  | nil => exact ⟨[], rfl⟩
  | cons a rest ih =>
    obtain ⟨b, hb⟩ := h a (by simp)
    obtain ⟨bs, hbs⟩ := ih fun x hx => h x (by simp [hx])
    exact ⟨b :: bs, by rw [List.mapM_cons, hb, hbs]; rfl⟩

theorem format_ok_of_allstr (d : List (String × JVal))
    (hstr : ∀ p ∈ d, ∃ s, p.2 = JVal.jstr s) :
    ∃ s, format_opening_hours_to_string d = .ok s := by
  unfold format_opening_hours_to_string
  by_cases he : d.isEmpty
  · exact ⟨fallbackHours, by rw [if_pos he]⟩
  · rw [if_neg he]
    have hg := (hoursToDays_perm d hstr).2
    obtain ⟨parts, hparts⟩ := mapM_ok_of_forall (hoursToDays d) formatGroup fun g hgm => by
      obtain ⟨s, hs⟩ := hg g hgm
      exact ⟨_, formatGroup_eq g s hs⟩
    refine ⟨String.intercalate ", " parts, ?_⟩
    rw [show ((do
        let parts ← (hoursToDays d).mapM formatGroup
        pure (String.intercalate ", " parts) : Except String String))
      = (hoursToDays d).mapM formatGroup >>= fun parts =>
          pure (String.intercalate ", " parts) from rfl, hparts]
    rfl

/-- Claim C2: for every well-formed weekday_text list whose entries have the
form "FullWeekdayName: hours" (full names drawn from the parser's table,
pairwise distinct), parsing succeeds and yields exactly the abbreviated
day-to-hours mapping of the input; formatting that mapping succeeds, and
the day-to-hours grouping denoted by the formatted output's structure -
its groups expanded through their sorted, range-collapsed day runs, each
group rendered with its hours modulo dash normalization (cleanHours) - is
a permutation of the parsed mapping, i.e. an equivalent grouping: the
parse-format round trip loses no association and invents none. -/
theorem c2_parse_format_roundtrip (entries : List (String × String))
    (hdays : ∀ p ∈ entries, p.1 ∈ days_map.map Prod.fst)
    (hnodup : (entries.map Prod.fst).Nodup) :
    ∃ parsed : List (String × JVal),
      parseWeekdayText (.jarr (entries.map fun p => .jstr (p.1 ++ ": " ++ p.2))) = .ok parsed ∧
      parsed = entries.map (fun p => (dayAbbr p.1, JVal.jstr p.2)) ∧
      (∀ g ∈ hoursToDays parsed, ∃ hs, g.1 = JVal.jstr hs ∧
        formatGroup g = .ok (String.intercalate ", " ((dayRanges (sortDays g.2)).map rangeLabel)
          ++ ": " ++ cleanHours hs) ∧
        (dayRanges (sortDays g.2)).flatten = sortDays g.2 ∧
        (sortDays g.2).Perm g.2) ∧
      (denotedPairs parsed).Perm parsed ∧
      (∃ s, format_opening_hours_to_string parsed = .ok s) := by
  have habbr : (entries.map fun p => dayAbbr p.1).Nodup := by
    have hmm : entries.map (fun p => dayAbbr p.1) = (entries.map Prod.fst).map dayAbbr := by
      simp [List.map_map, Function.comp]
    rw [hmm]
    apply List.Nodup.map_on ?_ hnodup
    intro x hx y hy hxy
    have hxf : x ∈ days_map.map Prod.fst := by
      obtain ⟨p, hp, hpe⟩ := List.mem_map.mp hx
      exact hpe ▸ hdays p hp
    have hyf : y ∈ days_map.map Prod.fst := by
      obtain ⟨p, hp, hpe⟩ := List.mem_map.mp hy
      exact hpe ▸ hdays p hp
    exact dayAbbr_inj x hxf y hyf hxy
  have hparse := parseWeekdayText_wellformed entries hdays habbr
  have hallstr : ∀ p ∈ entries.map (fun p => (dayAbbr p.1, JVal.jstr p.2)),
      ∃ s, p.2 = JVal.jstr s := by
    intro p hp
    obtain ⟨q, _, hqe⟩ := List.mem_map.mp hp
    exact ⟨q.2, by rw [hqe.symm]⟩
  refine ⟨entries.map (fun p => (dayAbbr p.1, JVal.jstr p.2)), hparse, rfl, ?_, ?_, ?_⟩
  · intro g hg
    obtain ⟨hs, hval⟩ := (hoursToDays_perm _ hallstr).2 g hg
    exact ⟨hs, hval, formatGroup_eq g hs hval, dayRanges_flatten _,
      List.perm_insertionSort _ g.2⟩
  · exact denotedPairs_perm _ hallstr
  · exact format_ok_of_allstr _ hallstr

/-- Witness for C2: the round trip at a concrete two-entry weekday_text. -/
theorem c2_witness :
    ∃ parsed : List (String × JVal),
      parseWeekdayText (.jarr (([("Monday", "9:00 - 17:00"), ("Saturday", "10:00 - 14:00")].map
          fun p => .jstr (p.1 ++ ": " ++ p.2)))) = .ok parsed ∧
      parsed = [("Monday", "9:00 - 17:00"), ("Saturday", "10:00 - 14:00")].map
        (fun p => (dayAbbr p.1, JVal.jstr p.2)) ∧
      (∀ g ∈ hoursToDays parsed, ∃ hs, g.1 = JVal.jstr hs ∧
        formatGroup g = .ok (String.intercalate ", " ((dayRanges (sortDays g.2)).map rangeLabel)
          ++ ": " ++ cleanHours hs) ∧
        (dayRanges (sortDays g.2)).flatten = sortDays g.2 ∧
        (sortDays g.2).Perm g.2) ∧
      (denotedPairs parsed).Perm parsed ∧
      (∃ s, format_opening_hours_to_string parsed = .ok s) :=
  c2_parse_format_roundtrip [("Monday", "9:00 - 17:00"), ("Saturday", "10:00 - 14:00")]
    (by decide) (by decide)
